import Mathlib

/-!
The TTL cache of redis-proxy and its read-through handler.

A shallow embedding of `pkg/cache/expiry-queue.go`, `pkg/cache/cache.go` and
`pkg/server/get-handler.go`, followed by theorems about their executions.

Conventions of the embedding.

* `time.Time` and `time.Duration` are integers (nanoseconds); `t.After(u)` is `u < t`
  and `t.Add(d)` is `t + d`.
* Every call of `time.Now()` is an explicit argument: `Put` reads the clock once and
  receives that reading; `removeExpiredKeys` reads it once per loop iteration and
  receives the function from the iteration number to the reading.
* The Go map `map[string]string` is an association list without duplicate keys
  (`AList`), `len` is the number of its entries, `delete` is `erase`, assignment is
  `insert`.
* The queue of the cache is the list of the records linked from `head`, head first.
  The linked structure itself, with its `head`, `tail` and `next` pointers, is
  `LinkedQueue`; it is shown below to represent that list under every sequence of
  calls.
* Reading `.key` of the `nil` returned by `pop` on an empty queue is a run-time panic:
  the operations that can do it return an `Option`, and `none` is the panic.
* The mutexes are omitted. Sequential executions are sequences of calls; executions
  of several `Put`s at the same time are interleavings of the sections in which `Put`
  holds a lock.
-/

namespace RedisProxy

/-- A record of the expiry queue: `KeyExpiry` without its `next` link, which is the
position in the list of the queue. -/
structure KeyExpiry where
  key : String
  expiration : Int
deriving DecidableEq, Repr

/-- The queue of `expiry-queue.go`: the records from `head` to `tail`. -/
structure ExpiryQueue where
  records : List KeyExpiry
deriving DecidableEq, Repr

/-- The function `newExpiryQueue`: both pointers are `nil`. -/
def newExpiryQueue : ExpiryQueue := ⟨[]⟩

/-- The method `peek`: the head record, `none` for `nil`. -/
def ExpiryQueue.peek (e : ExpiryQueue) : Option KeyExpiry := e.records.head?

/-- The method `pop`: returns the current head and, when there is one, advances
`head` to its successor. -/
def ExpiryQueue.pop (e : ExpiryQueue) : Option KeyExpiry × ExpiryQueue :=
  match e.records with
  | [] => (none, e)
  | currHead :: rest => (some currHead, ⟨rest⟩)

/-- The method `push`: links the record after the current tail. -/
def ExpiryQueue.push (e : ExpiryQueue) (keyExpiry : KeyExpiry) : ExpiryQueue :=
  ⟨e.records ++ [keyExpiry]⟩

/-- The method `clear` of the queue. -/
def ExpiryQueue.clear (_e : ExpiryQueue) : ExpiryQueue := ⟨[]⟩

/-- The type `map[string]string`. -/
abbrev GoMap := AList (fun _ : String => String)

/-- The struct `Cache` (without its mutex). -/
structure Cache where
  data : GoMap
  capacity : Int
  expiry : Int
  expiryQueue : ExpiryQueue

/-- The function `NewCache`. -/
def NewCache (capacity : Int) (expiry : Int) : Cache :=
  { data := ∅, capacity := capacity, expiry := expiry, expiryQueue := newExpiryQueue }

/-- The method `Size`: `len(c.data)`. -/
def Cache.Size (c : Cache) : Int := (c.data.entries.length : Int)

/-- The method `deleteKey`. -/
def Cache.deleteKey (c : Cache) (key : String) : Cache :=
  { c with data := c.data.erase key }

/-- The method `Put`, with `now` the reading of `time.Now()`. The result is `none`
when the eviction branch dereferences the `nil` popped from an empty queue. -/
def Cache.Put (c : Cache) (now : Int) (key value : String) : Option Cache :=
  let afterEviction : Option Cache :=
    if c.Size = c.capacity then
      match c.expiryQueue.pop with
      | (none, _) => none
      | (some oldest, q) => some ({ c with expiryQueue := q }.deleteKey oldest.key)
    else some c
  match afterEviction with
  | none => none
  | some c1 =>
    some { c1 with
      data := c1.data.insert key value
      expiryQueue := c1.expiryQueue.push ⟨key, now + c1.expiry⟩ }

/-- The method `Get`: the value (the empty string when absent), the presence flag,
and the cache after the call. -/
def Cache.Get (c : Cache) (key : String) : (String × Bool) × Cache :=
  match c.data.lookup key with
  | some value => ((value, true), c)
  | none => (("", false), c)

/-- The method `Clear`. -/
def Cache.Clear (c : Cache) : Cache :=
  { c with expiryQueue := c.expiryQueue.clear, data := ∅ }

/-- The loop of `removeExpiredKeys`. `head` is the record read once before the loop,
`clock i` the reading of `time.Now()` in iteration `i`; the first argument bounds
the number of iterations (each one pops a record) and `none` is also the answer
when it is used up. The second component of the result is the number of clock
readings made. -/
def Cache.sweepLoop (head : KeyExpiry) (clock : Nat → Int) :
    Nat → Nat → Cache → Option (Cache × Nat)
  | 0, _, _ => none
  | fuel + 1, i, c =>
    if clock i < head.expiration then some (c, i + 1)
    else
      match c.expiryQueue.pop with
      | (none, _) => none
      | (some expired, q) =>
        let c1 := { c with expiryQueue := q }.deleteKey expired.key
        match c1.expiryQueue.peek with
        | none => some (c1, i + 1)
        | some _ => Cache.sweepLoop head clock fuel (i + 1) c1

/-- The method `removeExpiredKeys`; `clock i` is the `i`-th reading of `time.Now()`
made by the call. Returns the cache and the number of readings made. -/
def Cache.removeExpiredKeys (c : Cache) (clock : Nat → Int) : Option (Cache × Nat) :=
  match c.expiryQueue.peek with
  | none => some (c, 0)
  | some head => Cache.sweepLoop head clock c.expiryQueue.records.length 0 c

/-- A sequential client of the cache: one call of a method. -/
inductive Op where
  | put (key value : String)
  | get (key : String)
  | clear
  | sweep
deriving DecidableEq, Repr

/-- One call on a cache. `clock n` is the `n`-th reading of `time.Now()` since the
cache was created and the second component of the state counts the readings made
so far: `Put` makes one, a sweep one per loop iteration. -/
def step (clock : Nat → Int) (w : Cache × Nat) : Op → Option (Cache × Nat)
  | .put key value => (w.1.Put (clock w.2) key value).map fun c => (c, w.2 + 1)
  | .get key => some ((w.1.Get key).2, w.2)
  | .clear => some (w.1.Clear, w.2)
  | .sweep =>
    (w.1.removeExpiredKeys fun i => clock (w.2 + i)).map fun r => (r.1, w.2 + r.2)

/-- A sequence of calls, one after the other; `none` as soon as one panics. -/
def run (clock : Nat → Int) : List Op → Cache × Nat → Option (Cache × Nat)
  | [], w => some w
  | op :: ops, w =>
    match step clock w op with
    | none => none
    | some w1 => run clock ops w1

/-- The states a cache made by `NewCache capacity expiry` can be in after a sequence
of calls under the clock `clock`. -/
def Reachable (clock : Nat → Int) (capacity expiry : Int) (w : Cache × Nat) : Prop :=
  ∃ ops : List Op, run clock ops (NewCache capacity expiry, 0) = some w

/-- The struct `App`, as far as `getValue` uses it: `client key` is the answer
`(value, err)` of `a.client.Get(key).Result()`, `err = none` for `nil`. -/
structure App where
  client : String → String × Option String
  Cache : Cache

/-- What a call of `getValue` leaves behind: the two returned values, the
application afterwards and the keys it asked the store for. -/
structure Lookup where
  value : String
  err : Option String
  app : App
  storeCalls : List String

/-- The function `getValue`; `now` is the clock reading of the `Put` it may make. -/
def getValue (a : App) (now : Int) (key : String) : Option Lookup :=
  match a.Cache.Get key with
  | ((value, true), c) => some ⟨value, none, { a with Cache := c }, []⟩
  | ((_, false), c) =>
    match a.client key with
    | (_, some err) => some ⟨"", some err, { a with Cache := c }, [key]⟩
    | (value, none) =>
      match c.Put now key value with
      | none => none
      | some c1 => some ⟨value, none, { a with Cache := c1 }, [key]⟩

/-- The constant `pathKey`. -/
def pathKey : String := "key"

/-- What the handler wrote: the status code and the body. -/
structure Response where
  status : Nat
  body : String
deriving DecidableEq, Repr

/-- The handler `GetValue`; `vars` is `mux.Vars(r)`. A body written without a
status has status 200. -/
def GetValue (a : App) (now : Int) (vars : GoMap) : Option (Response × App) :=
  match vars.lookup pathKey with
  | none => some (⟨400, ""⟩, a)
  | some key =>
    match getValue a now key with
    | none => none
    | some l => some (⟨if l.err.isSome then 404 else 200, l.value⟩, l.app)

/-! ## Notions used to state the properties -/

/-- The keys of the queue records, head first. -/
def ExpiryQueue.keys (e : ExpiryQueue) : List String := e.records.map KeyExpiry.key

/-- Every key of the map has a record in the queue. -/
def Tracked (c : Cache) : Prop := ∀ k, k ∈ c.data → k ∈ c.expiryQueue.keys

/-- Popping the head and deleting its key, the step shared by the eviction branch of
`Put` and by the loop of `removeExpiredKeys`. -/
def Cache.popDelete (c : Cache) (r : KeyExpiry) (rs : List KeyExpiry) : Cache :=
  { c with expiryQueue := ⟨rs⟩ }.deleteKey r.key

/-- The part of the state that no call changes, and the tracking of the keys. -/
def Inv (capacity expiry : Int) (w : Cache × Nat) : Prop :=
  Tracked w.1 ∧ w.1.capacity = capacity ∧ w.1.expiry = expiry

/-- The expirations in the queue do not decrease from head to tail and none is
later than the current clock reading plus the expiry. -/
def Ordered (bound : Int) (c : Cache) : Prop :=
  c.expiryQueue.records.Pairwise (fun a b => a.expiration ≤ b.expiration) ∧
    ∀ r ∈ c.expiryQueue.records, r.expiration ≤ bound + c.expiry

/-- The map after deleting the key of every record of a list. -/
def eraseKeys (m : GoMap) (rs : List KeyExpiry) : GoMap :=
  rs.foldl (fun d r => d.erase r.key) m

/-- The list `win` holds the resident entries of `c` in the order of their insertion:
its keys are pairwise distinct, they are the keys of the queue from head to tail, and
the map holds exactly its pairs. -/
def Window (win : List (String × String)) (c : Cache) : Prop :=
  (win.map Prod.fst).Nodup ∧ c.expiryQueue.keys = win.map Prod.fst ∧
    ∀ x y, c.data.lookup x = some y ↔ (x, y) ∈ win

/-- The resident entries after a `Put` of a new key: the oldest one leaves when the
cache is full. -/
def windowAfter (capacity : Int) (win : List (String × String)) (kv : String × String) :
    List (String × String) :=
  if (win.length : Int) = capacity then win.tail ++ [kv] else win ++ [kv]

/-- The calls `Put(k, v)` for the pairs of a list, in order. -/
def putOps (kvs : List (String × String)) : List Op := kvs.map fun kv => Op.put kv.1 kv.2

/-! ## Calls of `Put` that run at the same time

`Put` holds a lock four times: in `c.Size()`, in `c.expiryQueue.pop()`, in
`c.deleteKey(oldestKey)`, and from `c.mutex.Lock()` to its return. Every access to
the map and to the queue is made under a lock, so an execution of several calls is an
interleaving of these four sections. -/

/-- The section a call of `Put` is about to enter. -/
inductive PutPc where
  | atCheck
  | atPop
  | atDelete (oldestKey : String)
  | atInsert
  | finished
deriving DecidableEq, Repr

/-- A call `Put(key, value)` under way. -/
structure PutCall where
  key : String
  value : String
  pc : PutPc
deriving DecidableEq, Repr

/-- The next section of a call of `Put` on the shared cache; `now` is the clock
reading of the last section. The result is `none` when the `nil` popped from an empty
queue is dereferenced. A finished call does nothing. -/
def PutCall.advance (p : PutCall) (now : Int) (c : Cache) : Option (PutCall × Cache) :=
  match p.pc with
  | .atCheck => some ({ p with pc := if c.Size = c.capacity then .atPop else .atInsert }, c)
  | .atPop =>
    match c.expiryQueue.pop with
    | (none, _) => none
    | (some oldest, q) => some ({ p with pc := .atDelete oldest.key }, { c with expiryQueue := q })
  | .atDelete oldestKey => some ({ p with pc := .atInsert }, c.deleteKey oldestKey)
  | .atInsert =>
    some ({ p with pc := .finished },
      { c with
        data := c.data.insert p.key p.value
        expiryQueue := c.expiryQueue.push ⟨p.key, now + c.expiry⟩ })
  | .finished => some (p, c)

/-- A cache shared by calls of `Put`, with the number of clock readings made. -/
structure Shared where
  cache : Cache
  calls : List PutCall
  ticks : Nat

/-- The call number `i` runs its next section (nothing happens when there is no such
call or when it has finished). -/
def Shared.schedule (clock : Nat → Int) (s : Shared) (i : Nat) : Option Shared :=
  match s.calls.get? i with
  | none => some s
  | some p =>
    match p.advance (clock s.ticks) s.cache with
    | none => none
    | some (p1, c1) =>
      some { cache := c1, calls := s.calls.set i p1,
             ticks := if p.pc = .atInsert then s.ticks + 1 else s.ticks }

/-- An interleaving: the numbers of the calls in the order in which they run a
section. -/
def Shared.interleave (clock : Nat → Int) : List Nat → Shared → Option Shared
  | [], s => some s
  | i :: is, s =>
    match s.schedule clock i with
    | none => none
    | some s1 => Shared.interleave clock is s1

/-- One call of `Put` run alone from its start: its sections one after the other. -/
def PutCall.alone (key value : String) (now : Int) (c : Cache) : Option (PutCall × Cache) :=
  (((PutCall.advance ⟨key, value, .atCheck⟩ now c).bind fun s => s.1.advance now s.2).bind
    fun s => s.1.advance now s.2).bind fun s => s.1.advance now s.2

/-! ## Sequences of lookups -/

/-- What the proxy does, one request or timer tick after the other: a lookup by
`getValue`, a sweep, or a `Clear`. -/
inductive HOp where
  | lookup (key : String)
  | sweep
  | clear
deriving DecidableEq, Repr

/-- One step of the proxy; the clock is read as in `step`, once by the `Put` of a
lookup that populates the cache. -/
def hstep (clock : Nat → Int) (s : App × Nat) : HOp → Option (App × Nat)
  | .lookup key =>
    (getValue s.1 (clock s.2) key).map fun l =>
      (l.app, if l.err.isNone && !l.storeCalls.isEmpty then s.2 + 1 else s.2)
  | .sweep =>
    (s.1.Cache.removeExpiredKeys fun i => clock (s.2 + i)).map fun r =>
      ({ s.1 with Cache := r.1 }, s.2 + r.2)
  | .clear => some ({ s.1 with Cache := s.1.Cache.Clear }, s.2)

/-- A sequence of steps of the proxy; `none` as soon as one panics. -/
def hrun (clock : Nat → Int) : List HOp → App × Nat → Option (App × Nat)
  | [], s => some s
  | op :: ops, s =>
    match hstep clock s op with
    | none => none
    | some s1 => hrun clock ops s1

/-- The cache has the capacity `capacity`, its queue lists its resident entries, and
there are at most `capacity` of them. -/
def Resident (capacity : Int) (c : Cache) : Prop :=
  c.capacity = capacity ∧ ∃ win, Window win c ∧ (win.length : Int) ≤ capacity

/-! ## The queue as it lies in memory

`expiry-queue.go` builds the queue from `KeyExpiry` structs linked by their `next`
pointers. Here the structs live in a list, a pointer is `none` for `nil` or the index
of a struct, and allocation appends a struct. The queue of the cache above is the
list of records that this structure represents. -/

/-- The struct `KeyExpiry`, with its `next` pointer. -/
structure Node where
  key : String
  expiration : Int
  next : Option Nat
deriving DecidableEq, Repr

/-- The struct `ExpiryQueue` (without its mutex) together with the memory that holds
the `KeyExpiry` structs. -/
structure LinkedQueue where
  heap : List Node
  head : Option Nat
  tail : Option Nat
deriving DecidableEq, Repr

/-- The function `newExpiryQueue`, on an empty memory. -/
def newLinkedQueue : LinkedQueue := ⟨[], none, none⟩

/-- The expression `&KeyExpiry{...}`: a new struct and the pointer to it. -/
def LinkedQueue.alloc (e : LinkedQueue) (keyExpiry : Node) : LinkedQueue × Nat :=
  ({ e with heap := e.heap ++ [keyExpiry] }, e.heap.length)

/-- The record a pointer leads to, `none` for `nil`. -/
def LinkedQueue.deref (e : LinkedQueue) (p : Option Nat) : Option KeyExpiry :=
  match p with
  | none => none
  | some a => e.heap[a]?.map fun n => ⟨n.key, n.expiration⟩

/-- The method `peek`, on the linked structure. -/
def LinkedQueue.peek (e : LinkedQueue) : Option Nat := e.head

/-- The method `pop`, on the linked structure: the pointer returned and the queue
afterwards. The result is `none` when a pointer that is not `nil` leads to no struct,
which no execution does. -/
def LinkedQueue.pop (e : LinkedQueue) : Option (Option Nat × LinkedQueue) :=
  match e.head with
  | none => some (none, e)
  | some currHead =>
    match e.heap[currHead]? with
    | none => none
    | some node =>
      let e1 := { e with head := node.next }
      some (some currHead, if e1.head = none then { e1 with tail := none } else e1)

/-- The method `push`, on the linked structure. The result is `none` when `oldTail`
is `nil` or leads to no struct. -/
def LinkedQueue.push (e : LinkedQueue) (keyExpiry : Nat) : Option LinkedQueue :=
  match e.head with
  | none => some { e with head := some keyExpiry, tail := some keyExpiry }
  | some _ =>
    match e.tail with
    | none => none
    | some oldTail =>
      match e.heap[oldTail]? with
      | none => none
      | some node =>
        some { e with
          heap := e.heap.set oldTail { node with next := some keyExpiry }
          tail := some keyExpiry }

/-- The method `clear`, on the linked structure. -/
def LinkedQueue.clear (e : LinkedQueue) : LinkedQueue := { e with head := none, tail := none }

/-- The records met when following `next` from a pointer, at most as many as the
first argument says. -/
def walk (heap : List Node) : Nat → Option Nat → List KeyExpiry
  | 0, _ => []
  | _ + 1, none => []
  | fuel + 1, some a =>
    match heap[a]? with
    | none => []
    | some n => ⟨n.key, n.expiration⟩ :: walk heap fuel n.next

/-- The list of records a linked queue represents: the records met from `head`. No
chain without a repetition is longer than the memory. -/
def LinkedQueue.toList (e : LinkedQueue) : List KeyExpiry := walk e.heap e.heap.length e.head

/-- A call on a queue; `push` allocates the record as `Put` does, with `next` being
`nil`. -/
inductive QOp where
  | push (key : String) (expiration : Int)
  | pop
  | peek
  | clear
deriving DecidableEq, Repr

/-- One call on the linked queue, with the record `pop` or `peek` returned. -/
def LinkedQueue.call (e : LinkedQueue) : QOp → Option (LinkedQueue × List (Option KeyExpiry))
  | .push key expiration =>
    match (e.alloc ⟨key, expiration, none⟩).1.push (e.alloc ⟨key, expiration, none⟩).2 with
    | none => none
    | some e1 => some (e1, [])
  | .pop =>
    match e.pop with
    | none => none
    | some (p, e1) => some (e1, [e.deref p])
  | .peek => some (e, [e.deref e.peek])
  | .clear => some (e.clear, [])

/-- A sequence of calls on the linked queue and the records returned, in order. -/
def LinkedQueue.calls : List QOp → LinkedQueue → Option (LinkedQueue × List (Option KeyExpiry))
  | [], e => some (e, [])
  | op :: ops, e =>
    match e.call op with
    | none => none
    | some (e1, out1) =>
      match LinkedQueue.calls ops e1 with
      | none => none
      | some (e2, out2) => some (e2, out1 ++ out2)

/-- One call on the list of records: `push` appends at the tail, `pop` removes and
returns the first record, `peek` returns it, `clear` empties the list. -/
def ExpiryQueue.call (e : ExpiryQueue) : QOp → ExpiryQueue × List (Option KeyExpiry)
  | .push key expiration => (e.push ⟨key, expiration⟩, [])
  | .pop => (e.pop.2, [e.pop.1])
  | .peek => (e, [e.peek])
  | .clear => (e.clear, [])

/-- A sequence of calls on the list of records and the records returned, in order. -/
def ExpiryQueue.calls : List QOp → ExpiryQueue → ExpiryQueue × List (Option KeyExpiry)
  | [], e => (e, [])
  | op :: ops, e =>
    ((ExpiryQueue.calls ops (e.call op).1).1, (e.call op).2 ++ (ExpiryQueue.calls ops (e.call op).1).2)

/-- The structs linked from a pointer: `cells` lists their addresses and records, and
the last one has `nil` for `next`. -/
def Chain (heap : List Node) : Option Nat → List (Nat × KeyExpiry) → Prop
  | p, [] => p = none
  | p, c :: cs =>
    p = some c.1 ∧ ∃ nx, heap[c.1]? = some ⟨c.2.key, c.2.expiration, nx⟩ ∧ Chain heap nx cs

/-- The linked queue `e` represents the list of records `l`: the structs linked from
`head` are pairwise distinct, hold the records of `l` in order, and `tail` points to
the last of them. -/
def Refines (e : LinkedQueue) (l : ExpiryQueue) : Prop :=
  ∃ cells : List (Nat × KeyExpiry), Chain e.heap e.head cells ∧ (cells.map Prod.fst).Nodup ∧
    e.tail = (cells.map Prod.fst).getLast? ∧ cells.map Prod.snd = l.records

/-- The calls `push` for the records of a list, in order. -/
def pushOps (rs : List KeyExpiry) : List QOp := rs.map fun r => QOp.push r.key r.expiration

/-! ## Basic facts about the map and the operations -/

theorem size_eq_keys_length (c : Cache) : c.Size = (c.data.keys.length : Int) := by
  simp [Cache.Size, AList.keys, List.keys]

theorem goMap_eq_empty_of_forall_not_mem (m : GoMap) (h : ∀ k, k ∉ m) : m = ∅ := by
  apply AList.ext
  have hk : m.keys = [] := List.eq_nil_iff_forall_not_mem.mpr fun k hk => h k (AList.mem_keys.mpr hk)
  simpa [AList.keys, List.keys] using hk

theorem goMap_length_insert_of_not_mem (m : GoMap) (k v : String) (h : k ∉ m) :
    (m.insert k v).keys.length = m.keys.length + 1 := by
  rw [AList.keys_insert, List.erase_of_not_mem (fun hk => h (AList.mem_keys.mpr hk))]
  simp

theorem goMap_length_insert_of_mem (m : GoMap) (k v : String) (h : k ∈ m) :
    (m.insert k v).keys.length = m.keys.length := by
  have hk : k ∈ m.keys := AList.mem_keys.mp h
  rw [AList.keys_insert, List.length_cons, List.length_erase_of_mem hk]
  have : 0 < m.keys.length := List.length_pos_of_mem hk
  omega

theorem goMap_length_erase_of_mem (m : GoMap) (k : String) (h : k ∈ m) :
    (m.erase k).keys.length + 1 = m.keys.length := by
  have hk : k ∈ m.keys := AList.mem_keys.mp h
  rw [AList.keys_erase, List.length_erase_of_mem hk]
  have : 0 < m.keys.length := List.length_pos_of_mem hk
  omega

theorem goMap_erase_of_not_mem (m : GoMap) (k : String) (h : k ∉ m) : m.erase k = m := by
  apply AList.ext
  simp only [AList.erase]
  exact List.kerase_of_not_mem_keys (fun hk => h (AList.mem_keys.mpr hk))

/-- A `Put` on a cache that is not full: no eviction. -/
theorem Put_of_size_ne (c : Cache) (now : Int) (k v : String) (h : c.Size ≠ c.capacity) :
    c.Put now k v = some { c with
      data := c.data.insert k v
      expiryQueue := c.expiryQueue.push ⟨k, now + c.expiry⟩ } := by
  simp [Cache.Put, h]

/-- A `Put` on a full cache whose queue has a head: the head is popped and its key
deleted before the insertion. -/
theorem Put_of_size_eq_cons (c : Cache) (now : Int) (k v : String) (r : KeyExpiry)
    (rs : List KeyExpiry) (h : c.Size = c.capacity) (hq : c.expiryQueue.records = r :: rs) :
    c.Put now k v = some { c with
      data := (c.data.erase r.key).insert k v
      expiryQueue := ⟨rs ++ [⟨k, now + c.expiry⟩]⟩ } := by
  simp [Cache.Put, h, ExpiryQueue.pop, hq, Cache.deleteKey, ExpiryQueue.push]

/-- A `Put` on a full cache whose queue is empty panics. -/
theorem Put_of_size_eq_nil (c : Cache) (now : Int) (k v : String)
    (h : c.Size = c.capacity) (hq : c.expiryQueue.records = []) :
    c.Put now k v = none := by
  simp [Cache.Put, h, ExpiryQueue.pop, hq]

/-- The two ways a `Put` can return. -/
theorem Put_cases {c c1 : Cache} {now : Int} {k v : String} (h : c.Put now k v = some c1) :
    (c.Size ≠ c.capacity ∧ c1 = { c with
        data := c.data.insert k v
        expiryQueue := c.expiryQueue.push ⟨k, now + c.expiry⟩ }) ∨
    (c.Size = c.capacity ∧ ∃ r rs, c.expiryQueue.records = r :: rs ∧ c1 = { c with
        data := (c.data.erase r.key).insert k v
        expiryQueue := ⟨rs ++ [⟨k, now + c.expiry⟩]⟩ }) := by
  by_cases hs : c.Size = c.capacity
  · right
    refine ⟨hs, ?_⟩
    cases hq : c.expiryQueue.records with
    | nil => rw [Put_of_size_eq_nil c now k v hs hq] at h; cases h
    | cons r rs =>
      rw [Put_of_size_eq_cons c now k v r rs hs hq] at h
      exact ⟨r, rs, rfl, (Option.some.inj h).symm⟩
  · left
    rw [Put_of_size_ne c now k v hs] at h
    exact ⟨hs, (Option.some.inj h).symm⟩

/-! ## Invariants of sequential executions -/

theorem tracked_NewCache (capacity expiry : Int) : Tracked (NewCache capacity expiry) := by
  intro k hk
  exact absurd hk (AList.not_mem_empty k)

theorem tracked_Clear (c : Cache) : Tracked c.Clear := by
  intro k hk
  exact absurd hk (AList.not_mem_empty k)

theorem tracked_popDelete {c : Cache} {r : KeyExpiry} {rs : List KeyExpiry}
    (h : Tracked c) (hq : c.expiryQueue.records = r :: rs) : Tracked (c.popDelete r rs) := by
  intro k hk
  have hk1 : k ≠ r.key ∧ k ∈ c.data := by
    simpa [Cache.popDelete, Cache.deleteKey, AList.mem_erase] using hk
  have hk2 := h k hk1.2
  simp only [ExpiryQueue.keys, hq, List.map_cons, List.mem_cons] at hk2
  rcases hk2 with hk2 | hk2
  · exact absurd hk2 hk1.1
  · simpa [Cache.popDelete, Cache.deleteKey, ExpiryQueue.keys] using hk2

theorem tracked_Put {c c1 : Cache} {now : Int} {k v : String}
    (h : Tracked c) (hp : c.Put now k v = some c1) : Tracked c1 := by
  rcases Put_cases hp with ⟨_, rfl⟩ | ⟨_, r, rs, hq, rfl⟩
  · intro x hx
    simp only [AList.mem_insert] at hx
    simp only [ExpiryQueue.keys, ExpiryQueue.push, List.map_append, List.map_cons,
      List.map_nil, List.mem_append, List.mem_singleton]
    rcases hx with hx | hx
    · exact Or.inr hx
    · exact Or.inl (h x hx)
  · intro x hx
    simp only [AList.mem_insert] at hx
    simp only [ExpiryQueue.keys, List.map_append, List.map_cons,
      List.map_nil, List.mem_append, List.mem_singleton]
    rcases hx with hx | hx
    · exact Or.inr hx
    · have := tracked_popDelete h hq x (by simpa [Cache.popDelete, Cache.deleteKey] using hx)
      exact Or.inl (by simpa [Cache.popDelete, Cache.deleteKey, ExpiryQueue.keys] using this)

/-- A tracked cache that is full, with a capacity of at least one, has a queue head. -/
theorem records_ne_nil_of_full {c : Cache} (h : Tracked c) (hcap : 1 ≤ c.capacity)
    (hs : c.Size = c.capacity) : c.expiryQueue.records ≠ [] := by
  intro hq
  rw [size_eq_keys_length] at hs
  have hpos : 0 < c.data.keys.length := by omega
  obtain ⟨k, hk⟩ := List.exists_mem_of_length_pos hpos
  have := h k (AList.mem_keys.mpr hk)
  simp [ExpiryQueue.keys, hq] at this

/-- The method `Put` returns on every tracked cache whose capacity is at least one. -/
theorem Put_returns {c : Cache} (h : Tracked c) (hcap : 1 ≤ c.capacity) (now : Int)
    (k v : String) : ∃ c1, c.Put now k v = some c1 := by
  by_cases hs : c.Size = c.capacity
  · cases hq : c.expiryQueue.records with
    | nil => exact absurd hq (records_ne_nil_of_full h hcap hs)
    | cons r rs => exact ⟨_, Put_of_size_eq_cons c now k v r rs hs hq⟩
  · exact ⟨_, Put_of_size_ne c now k v hs⟩

theorem Put_capacity {c c1 : Cache} {now : Int} {k v : String}
    (hp : c.Put now k v = some c1) : c1.capacity = c.capacity ∧ c1.expiry = c.expiry := by
  rcases Put_cases hp with ⟨_, rfl⟩ | ⟨_, r, rs, _, rfl⟩ <;> exact ⟨rfl, rfl⟩

/-! ## The sweep -/

/-- One iteration of the loop on a queue with head `r`. -/
theorem sweepLoop_cons (head : KeyExpiry) (clock : Nat → Int) (fuel i : Nat) (c : Cache)
    (r : KeyExpiry) (rs : List KeyExpiry) (hq : c.expiryQueue.records = r :: rs) :
    Cache.sweepLoop head clock (fuel + 1) i c =
      if clock i < head.expiration then some (c, i + 1)
      else if rs = [] then some (c.popDelete r rs, i + 1)
      else Cache.sweepLoop head clock fuel (i + 1) (c.popDelete r rs) := by
  by_cases hc : clock i < head.expiration
  · simp [Cache.sweepLoop, hc]
  · cases rs with
    | nil =>
      simp [Cache.sweepLoop, hc, ExpiryQueue.pop, hq, Cache.popDelete, Cache.deleteKey,
        ExpiryQueue.peek]
    | cons r2 rs2 =>
      simp [Cache.sweepLoop, hc, ExpiryQueue.pop, hq, Cache.popDelete, Cache.deleteKey,
        ExpiryQueue.peek]

theorem popDelete_records (c : Cache) (r : KeyExpiry) (rs : List KeyExpiry) :
    (c.popDelete r rs).expiryQueue.records = rs := rfl

/-- The loop returns: on a queue with a head, a bound of the length of the queue is
never used up and no `nil` is dereferenced. -/
theorem sweepLoop_returns (head : KeyExpiry) (clock : Nat → Int) :
    ∀ (fuel i : Nat) (c : Cache), c.expiryQueue.records ≠ [] →
      c.expiryQueue.records.length ≤ fuel →
      ∃ w, Cache.sweepLoop head clock fuel i c = some w := by
  intro fuel
  induction fuel with
  | zero =>
    intro i c hne hlen
    exact absurd (List.length_eq_zero.mp (Nat.le_zero.mp hlen)) hne
  | succ fuel ih =>
    intro i c hne hlen
    cases hq : c.expiryQueue.records with
    | nil => exact absurd hq hne
    | cons r rs =>
      rw [sweepLoop_cons head clock fuel i c r rs hq]
      by_cases hc : clock i < head.expiration
      · exact ⟨_, if_pos hc⟩
      · rw [if_neg hc]
        by_cases hrs : rs = []
        · exact ⟨_, if_pos hrs⟩
        · rw [if_neg hrs]
          apply ih (i + 1) (c.popDelete r rs)
          · simpa [popDelete_records] using hrs
          · rw [hq] at hlen
            simpa [popDelete_records] using Nat.le_of_succ_le_succ hlen

/-- A property kept by popping the head and deleting its key is kept by the loop. -/
theorem sweepLoop_preserves (P : Cache → Prop)
    (hP : ∀ c r rs, P c → c.expiryQueue.records = r :: rs → P (c.popDelete r rs))
    (head : KeyExpiry) (clock : Nat → Int) :
    ∀ (fuel i : Nat) (c : Cache) (w : Cache × Nat), P c →
      Cache.sweepLoop head clock fuel i c = some w → P w.1 := by
  intro fuel
  induction fuel with
  | zero =>
    intro i c w _ h
    simp [Cache.sweepLoop] at h
  | succ fuel ih =>
    intro i c w hc h
    cases hq : c.expiryQueue.records with
    | nil => simp [Cache.sweepLoop, ExpiryQueue.pop, hq] at h; rw [← h.2]; exact hc
    | cons r rs =>
      rw [sweepLoop_cons head clock fuel i c r rs hq] at h
      by_cases ht : clock i < head.expiration
      · rw [if_pos ht] at h
        rw [← Option.some.inj h]; exact hc
      · rw [if_neg ht] at h
        by_cases hrs : rs = []
        · rw [if_pos hrs] at h
          rw [← Option.some.inj h]; exact hP c r rs hc hq
        · rw [if_neg hrs] at h
          exact ih (i + 1) _ w (hP c r rs hc hq) h

/-- The method `removeExpiredKeys` returns on every cache and under every clock. -/
theorem removeExpiredKeys_returns (c : Cache) (clock : Nat → Int) :
    ∃ w, c.removeExpiredKeys clock = some w := by
  cases hq : c.expiryQueue.records with
  | nil => exact ⟨(c, 0), by simp [Cache.removeExpiredKeys, ExpiryQueue.peek, hq]⟩
  | cons r rs =>
    have hne : c.expiryQueue.records ≠ [] := by simp [hq]
    obtain ⟨w, hw⟩ := sweepLoop_returns r clock _ 0 c hne (le_refl _)
    exact ⟨w, by simpa [Cache.removeExpiredKeys, ExpiryQueue.peek, hq] using hw⟩

/-- A property kept by popping the head and deleting its key is kept by a sweep. -/
theorem removeExpiredKeys_preserves (P : Cache → Prop)
    (hP : ∀ c r rs, P c → c.expiryQueue.records = r :: rs → P (c.popDelete r rs))
    (clock : Nat → Int) (c : Cache) (w : Cache × Nat) (hc : P c)
    (h : c.removeExpiredKeys clock = some w) : P w.1 := by
  cases hq : c.expiryQueue.records with
  | nil =>
    simp [Cache.removeExpiredKeys, ExpiryQueue.peek, hq] at h
    rw [← h]; exact hc
  | cons r rs =>
    simp only [Cache.removeExpiredKeys, ExpiryQueue.peek, hq, List.head?_cons] at h
    exact sweepLoop_preserves P hP r clock _ 0 c w hc h

/-! ## Sequences of calls -/

/-- A property kept by every call holds after every sequence of calls. -/
theorem run_preserves (clock : Nat → Int) (P : Cache × Nat → Prop)
    (hstep : ∀ w op w1, P w → step clock w op = some w1 → P w1) :
    ∀ (ops : List Op) (w w1 : Cache × Nat), P w → run clock ops w = some w1 → P w1 := by
  intro ops
  induction ops with
  | nil =>
    intro w w1 hw h
    simp only [run] at h
    rw [← Option.some.inj h]; exact hw
  | cons op ops ih =>
    intro w w1 hw h
    simp only [run] at h
    cases hs : step clock w op with
    | none => rw [hs] at h; cases h
    | some w2 =>
      rw [hs] at h
      exact ih w2 w1 (hstep w op w2 hw hs) h

theorem run_append (clock : Nat → Int) (ops1 ops2 : List Op) (w : Cache × Nat) :
    run clock (ops1 ++ ops2) w =
      match run clock ops1 w with
      | none => none
      | some w1 => run clock ops2 w1 := by
  induction ops1 generalizing w with
  | nil => simp [run]
  | cons op ops ih =>
    simp only [List.cons_append, run]
    cases step clock w op with
    | none => rfl
    | some w2 => exact ih w2

theorem inv_step (clock : Nat → Int) (capacity expiry : Int) (w : Cache × Nat) (op : Op)
    (w1 : Cache × Nat) (hw : Inv capacity expiry w) (h : step clock w op = some w1) :
    Inv capacity expiry w1 := by
  obtain ⟨ht, hc, he⟩ := hw
  cases op with
  | put key value =>
    simp only [step, Option.map_eq_some'] at h
    obtain ⟨c1, hp, rfl⟩ := h
    have := Put_capacity hp
    exact ⟨tracked_Put ht hp, by rw [← hc]; exact this.1, by rw [← he]; exact this.2⟩
  | get key =>
    simp only [step, Option.some.injEq] at h
    rw [← h]
    refine ⟨?_, ?_, ?_⟩ <;> (simp only [Cache.Get]; split <;> assumption)
  | clear =>
    simp only [step, Option.some.injEq] at h
    rw [← h]
    exact ⟨tracked_Clear _, hc, he⟩
  | sweep =>
    simp only [step, Option.map_eq_some'] at h
    obtain ⟨r, hr, rfl⟩ := h
    exact removeExpiredKeys_preserves
      (fun c => Tracked c ∧ c.capacity = capacity ∧ c.expiry = expiry)
      (fun c r rs hc hq => ⟨tracked_popDelete hc.1 hq, hc.2.1, hc.2.2⟩) _ w.1 r ⟨ht, hc, he⟩ hr

/-- Every reachable state is tracked and has the capacity and the expiry of its
creation. -/
theorem inv_of_reachable {clock : Nat → Int} {capacity expiry : Int} {w : Cache × Nat}
    (h : Reachable clock capacity expiry w) : Inv capacity expiry w := by
  obtain ⟨ops, hops⟩ := h
  exact run_preserves clock (Inv capacity expiry) (inv_step clock capacity expiry) ops _ w
    ⟨tracked_NewCache capacity expiry, rfl, rfl⟩ hops

/-- Every call returns on a tracked cache whose capacity is at least one. -/
theorem step_returns (clock : Nat → Int) (w : Cache × Nat) (op : Op) (ht : Tracked w.1)
    (hcap : 1 ≤ w.1.capacity) : ∃ w1, step clock w op = some w1 := by
  cases op with
  | put key value =>
    obtain ⟨c1, hc1⟩ := Put_returns ht hcap (clock w.2) key value
    exact ⟨(c1, w.2 + 1), by simp [step, hc1]⟩
  | get key => exact ⟨_, rfl⟩
  | clear => exact ⟨_, rfl⟩
  | sweep =>
    obtain ⟨r, hr⟩ := removeExpiredKeys_returns w.1 (fun i => clock (w.2 + i))
    exact ⟨(r.1, w.2 + r.2), by simp [step, hr]⟩

theorem ordered_popDelete (bound : Int) (c : Cache) (r : KeyExpiry) (rs : List KeyExpiry)
    (h : Ordered bound c) (hq : c.expiryQueue.records = r :: rs) :
    Ordered bound (c.popDelete r rs) := by
  obtain ⟨h1, h2⟩ := h
  rw [hq] at h1 h2
  refine ⟨?_, ?_⟩
  · exact (List.pairwise_cons.mp h1).2
  · intro x hx
    exact h2 x (List.mem_cons_of_mem _ hx)

theorem ordered_mono {b1 b2 : Int} {c : Cache} (h : Ordered b1 c) (hb : b1 ≤ b2) :
    Ordered b2 c :=
  ⟨h.1, fun r hr => le_trans (h.2 r hr) (by omega)⟩

theorem ordered_Put {c c1 : Cache} {now : Int} {k v : String} (h : Ordered now c)
    (hp : c.Put now k v = some c1) : Ordered now c1 := by
  obtain ⟨h1, h2⟩ := h
  rcases Put_cases hp with ⟨_, rfl⟩ | ⟨_, r, rs, hq, rfl⟩
  · refine ⟨?_, ?_⟩
    · simp only [ExpiryQueue.push]
      rw [List.pairwise_append]
      refine ⟨h1, List.pairwise_singleton _ _, ?_⟩
      intro a ha b hb
      rw [List.mem_singleton.mp hb]
      exact h2 a ha
    · intro x hx
      simp only [ExpiryQueue.push, List.mem_append, List.mem_singleton] at hx
      rcases hx with hx | hx
      · exact h2 x hx
      · rw [hx]
  · rw [hq] at h1 h2
    refine ⟨?_, ?_⟩
    · show List.Pairwise _ (rs ++ [_])
      rw [List.pairwise_append]
      refine ⟨(List.pairwise_cons.mp h1).2, List.pairwise_singleton _ _, ?_⟩
      intro a ha b hb
      rw [List.mem_singleton.mp hb]
      exact h2 a (List.mem_cons_of_mem _ ha)
    · intro x hx
      simp only [List.mem_append, List.mem_singleton] at hx
      rcases hx with hx | hx
      · exact h2 x (List.mem_cons_of_mem _ hx)
      · rw [hx]

theorem ordered_step (clock : Nat → Int) (hmono : Monotone clock) (w : Cache × Nat) (op : Op)
    (w1 : Cache × Nat) (hw : Ordered (clock w.2) w.1) (h : step clock w op = some w1) :
    Ordered (clock w1.2) w1.1 := by
  cases op with
  | put key value =>
    simp only [step, Option.map_eq_some'] at h
    obtain ⟨c1, hp, rfl⟩ := h
    exact ordered_mono (ordered_Put hw hp) (hmono (Nat.le_succ _))
  | get key =>
    simp only [step, Option.some.injEq] at h
    rw [← h]
    simp only [Cache.Get]; split <;> exact hw
  | clear =>
    simp only [step, Option.some.injEq] at h
    rw [← h]
    exact ⟨List.Pairwise.nil, fun r hr => by simp [Cache.Clear, ExpiryQueue.clear] at hr⟩
  | sweep =>
    simp only [step, Option.map_eq_some'] at h
    obtain ⟨r, hr, rfl⟩ := h
    exact ordered_mono (removeExpiredKeys_preserves (Ordered (clock w.2))
      (ordered_popDelete (clock w.2)) _ w.1 r hw hr) (hmono (Nat.le_add_right _ _))

/-- Under a clock that never goes back, the queue of every reachable state is
ordered by expiration. -/
theorem ordered_of_reachable {clock : Nat → Int} (hmono : Monotone clock)
    {capacity expiry : Int} {w : Cache × Nat} (h : Reachable clock capacity expiry w) :
    Ordered (clock w.2) w.1 := by
  obtain ⟨ops, hops⟩ := h
  exact run_preserves clock (fun w => Ordered (clock w.2) w.1) (ordered_step clock hmono) ops _ w
    ⟨List.Pairwise.nil, fun r hr => by simp [NewCache, newExpiryQueue] at hr⟩ hops

/-! ## What a sweep does under a clock that never goes back -/

theorem mem_eraseKeys (rs : List KeyExpiry) (m : GoMap) (k : String) :
    k ∈ eraseKeys m rs ↔ k ∈ m ∧ k ∉ rs.map KeyExpiry.key := by
  induction rs generalizing m with
  | nil => simp [eraseKeys]
  | cons r rs ih =>
    have h := ih (m.erase r.key)
    simp only [eraseKeys, List.foldl_cons] at h ⊢
    rw [h, AList.mem_erase]
    simp only [List.map_cons, List.mem_cons, not_or]
    tauto

/-- Once the head read before the loop is expired at every later reading, the loop
pops every record and deletes every key they name. -/
theorem sweepLoop_all (head : KeyExpiry) (clock : Nat → Int) :
    ∀ (fuel i : Nat) (c : Cache), c.expiryQueue.records ≠ [] →
      c.expiryQueue.records.length ≤ fuel →
      (∀ j, i ≤ j → head.expiration ≤ clock j) →
      Cache.sweepLoop head clock fuel i c =
        some ({ c with data := eraseKeys c.data c.expiryQueue.records, expiryQueue := ⟨[]⟩ },
          i + c.expiryQueue.records.length) := by
  intro fuel
  induction fuel with
  | zero =>
    intro i c hne hlen _
    exact absurd (List.length_eq_zero.mp (Nat.le_zero.mp hlen)) hne
  | succ fuel ih =>
    intro i c hne hlen hexp
    cases hq : c.expiryQueue.records with
    | nil => exact absurd hq hne
    | cons r rs =>
      rw [sweepLoop_cons head clock fuel i c r rs hq]
      have hc : ¬ clock i < head.expiration := not_lt.mpr (hexp i (le_refl i))
      rw [if_neg hc]
      by_cases hrs : rs = []
      · rw [if_pos hrs]
        subst hrs
        simp [Cache.popDelete, Cache.deleteKey, eraseKeys]
      · rw [if_neg hrs]
        rw [ih (i + 1) (c.popDelete r rs) (by simpa [popDelete_records] using hrs)
          (by rw [hq] at hlen; simpa [popDelete_records] using Nat.le_of_succ_le_succ hlen)
          (fun j hj => hexp j (by omega))]
        simp only [popDelete_records, List.length_cons, eraseKeys, List.foldl_cons]
        simp only [Cache.popDelete, Cache.deleteKey]
        congr 2
        omega

/-- A sweep of an empty queue reads no clock and changes nothing. -/
theorem removeExpiredKeys_nil (c : Cache) (clock : Nat → Int)
    (hq : c.expiryQueue.records = []) : c.removeExpiredKeys clock = some (c, 0) := by
  simp [Cache.removeExpiredKeys, ExpiryQueue.peek, hq]

/-- A sweep whose first clock reading is before the expiration of the head changes
nothing. -/
theorem removeExpiredKeys_fresh (c : Cache) (clock : Nat → Int) (r : KeyExpiry)
    (rs : List KeyExpiry) (hq : c.expiryQueue.records = r :: rs)
    (h : clock 0 < r.expiration) : c.removeExpiredKeys clock = some (c, 1) := by
  simp [Cache.removeExpiredKeys, ExpiryQueue.peek, hq, Cache.sweepLoop, h]

/-- A sweep whose first clock reading is at or after the expiration of the head, under
a clock that never goes back, empties the queue and deletes every key it names. -/
theorem removeExpiredKeys_expired (c : Cache) (clock : Nat → Int) (r : KeyExpiry)
    (rs : List KeyExpiry) (hq : c.expiryQueue.records = r :: rs)
    (hmono : ∀ j, clock 0 ≤ clock j) (h : r.expiration ≤ clock 0) :
    c.removeExpiredKeys clock =
      some ({ c with data := eraseKeys c.data c.expiryQueue.records, expiryQueue := ⟨[]⟩ },
        c.expiryQueue.records.length) := by
  have hne : c.expiryQueue.records ≠ [] := by simp [hq]
  have := sweepLoop_all r clock c.expiryQueue.records.length 0 c hne (le_refl _)
    (fun j _ => le_trans h (hmono j))
  simp only [Cache.removeExpiredKeys, ExpiryQueue.peek, hq, List.head?_cons]
  rw [hq] at this
  simpa using this

/-! ## Caches whose queue lists the resident entries -/

theorem Get_fst (c : Cache) (k : String) :
    (c.Get k).1 = ((c.data.lookup k).getD "", (c.data.lookup k).isSome) := by
  simp only [Cache.Get]
  cases c.data.lookup k <;> rfl

theorem Get_snd (c : Cache) (k : String) : (c.Get k).2 = c := by
  simp only [Cache.Get]
  cases c.data.lookup k <;> rfl

theorem Get_found_iff (c : Cache) (k : String) : (c.Get k).1.2 = true ↔ k ∈ c.data := by
  rw [Get_fst]
  exact AList.lookup_isSome (a := k) (s := c.data)

theorem Get_eq_of_lookup (c : Cache) (k v : String) (h : c.data.lookup k = some v) :
    (c.Get k).1 = (v, true) := by
  rw [Get_fst, h]; rfl

theorem window_mem {win : List (String × String)} {c : Cache} (h : Window win c) (k : String) :
    k ∈ c.data ↔ k ∈ win.map Prod.fst := by
  rw [← AList.lookup_isSome, Option.isSome_iff_exists]
  simp only [h.2.2, List.mem_map, Prod.exists, exists_and_right, exists_eq_right]

theorem window_size {win : List (String × String)} {c : Cache} (h : Window win c) :
    c.Size = (win.length : Int) := by
  rw [size_eq_keys_length]
  have hperm : c.data.keys.Perm (win.map Prod.fst) :=
    (List.perm_ext_iff_of_nodup c.data.keys_nodup h.1).mpr fun k => by
      rw [← AList.mem_keys]; exact window_mem h k
  rw [hperm.length_eq, List.length_map]

theorem window_Put {win : List (String × String)} {c : Cache} (h : Window win c)
    (hcap : 1 ≤ c.capacity) (now : Int) (k v : String) (hk : k ∉ win.map Prod.fst) :
    ∃ c1, c.Put now k v = some c1 ∧ Window (windowAfter c.capacity win (k, v)) c1 := by
  obtain ⟨hnd, hkeys, hlook⟩ := h
  have hsize : c.Size = (win.length : Int) := window_size ⟨hnd, hkeys, hlook⟩
  have hnew : ∀ y, (k, y) ∉ win := fun y hy => hk (List.mem_map.mpr ⟨(k, y), hy, rfl⟩)
  by_cases hs : c.Size = c.capacity
  · have hwa : windowAfter c.capacity win (k, v) = win.tail ++ [(k, v)] := by
      simp [windowAfter, ← hsize, hs]
    rw [hwa]
    cases win with
    | nil => simp at hsize; omega
    | cons hd tl =>
      cases hq : c.expiryQueue.records with
      | nil => simp [ExpiryQueue.keys, hq] at hkeys
      | cons r rs =>
        simp only [ExpiryQueue.keys, hq, List.map_cons, List.cons.injEq] at hkeys
        obtain ⟨hr, hrs⟩ := hkeys
        simp only [List.map_cons, List.nodup_cons, List.mem_cons, not_or] at hnd hk
        have hhd : ∀ y, (hd.1, y) ∉ tl := fun y hy => hnd.1 (List.mem_map.mpr ⟨(hd.1, y), hy, rfl⟩)
        refine ⟨_, Put_of_size_eq_cons c now k v r rs hs hq, ?_, ?_, ?_⟩
        · simp only [List.tail_cons, List.map_append, List.map_cons, List.map_nil]
          rw [List.nodup_append]
          refine ⟨hnd.2, List.nodup_singleton _, ?_⟩
          intro x hx hx2
          rw [List.mem_singleton.mp hx2] at hx
          exact hk.2 hx
        · simp [ExpiryQueue.keys, hrs]
        · intro x y
          simp only [List.tail_cons, List.mem_append, List.mem_singleton, Prod.mk.injEq]
          by_cases hxk : x = k
          · subst hxk
            rw [AList.lookup_insert]
            constructor
            · intro hy; exact Or.inr ⟨rfl, (Option.some.inj hy).symm⟩
            · rintro (hy | ⟨_, hy⟩)
              · exact absurd (List.mem_cons_of_mem _ hy) (hnew y)
              · rw [hy]
          · rw [AList.lookup_insert_ne hxk]
            by_cases hxr : x = r.key
            · subst hxr
              rw [AList.lookup_erase]
              constructor
              · intro hy; cases hy
              · rintro (hy | ⟨hy, _⟩)
                · rw [hr] at hy; exact absurd hy (hhd y)
                · exact absurd hy hxk
            · rw [AList.lookup_erase_ne hxr, hlook]
              simp only [List.mem_cons]
              constructor
              · rintro (hy | hy)
                · rw [← hy] at hr; exact absurd hr.symm hxr
                · exact Or.inl hy
              · rintro (hy | ⟨hy, _⟩)
                · exact Or.inr hy
                · exact absurd hy hxk
  · have hwa : windowAfter c.capacity win (k, v) = win ++ [(k, v)] := by
      simp [windowAfter, ← hsize, hs]
    rw [hwa]
    refine ⟨_, Put_of_size_ne c now k v hs, ?_, ?_, ?_⟩
    · simp only [List.map_append, List.map_cons, List.map_nil]
      rw [List.nodup_append]
      refine ⟨hnd, List.nodup_singleton _, ?_⟩
      intro x hx hx2
      rw [List.mem_singleton.mp hx2] at hx
      exact hk hx
    · simp [ExpiryQueue.keys, ExpiryQueue.push, ← hkeys]
    · intro x y
      simp only [List.mem_append, List.mem_singleton, Prod.mk.injEq]
      by_cases hxk : x = k
      · subst hxk
        rw [AList.lookup_insert]
        constructor
        · intro hy; exact Or.inr ⟨rfl, (Option.some.inj hy).symm⟩
        · rintro (hy | ⟨_, hy⟩)
          · exact absurd hy (hnew y)
          · rw [hy]
      · rw [AList.lookup_insert_ne hxk, hlook]
        constructor
        · intro hy; exact Or.inl hy
        · rintro (hy | ⟨hy, _⟩)
          · exact hy
          · exact absurd hy hxk

theorem window_NewCache (capacity expiry : Int) : Window [] (NewCache capacity expiry) := by
  refine ⟨List.nodup_nil, rfl, ?_⟩
  intro x y
  simp [NewCache]

/-- After the `Put`s of pairwise distinct keys into a fresh cache of capacity `m ≥ 1`
the resident entries are the last `m` pairs put (all of them when there are fewer). -/
theorem putOps_window (clock : Nat → Int) (m : Nat) (hm : 1 ≤ m) (expiry : Int) :
    ∀ kvs : List (String × String), (kvs.map Prod.fst).Nodup →
      ∃ w, run clock (putOps kvs) (NewCache m expiry, 0) = some w ∧
        w.1.capacity = m ∧ Window (kvs.drop (kvs.length - m)) w.1 := by
  intro kvs
  induction kvs using List.reverseRecOn with
  | nil =>
    intro _
    exact ⟨_, rfl, rfl, by simpa using window_NewCache m expiry⟩
  | append_singleton kvs kv ih =>
    intro hnd
    rw [List.map_append, List.nodup_append] at hnd
    obtain ⟨hnd1, _, hdisj⟩ := hnd
    have hkv : kv.1 ∉ kvs.map Prod.fst := fun hx => hdisj hx (by simp)
    obtain ⟨w, hrun, hcapw, hwin⟩ := ih hnd1
    have hkv2 : kv.1 ∉ (kvs.drop (kvs.length - m)).map Prod.fst := by
      intro hx
      obtain ⟨p, hp, hp1⟩ := List.mem_map.mp hx
      exact hkv (List.mem_map.mpr ⟨p, List.mem_of_mem_drop hp, hp1⟩)
    have hcap1 : 1 ≤ w.1.capacity := by rw [hcapw]; exact_mod_cast hm
    obtain ⟨c1, hput, hwin1⟩ := window_Put hwin hcap1 (clock w.2) kv.1 kv.2 hkv2
    refine ⟨(c1, w.2 + 1), ?_, ?_, ?_⟩
    · simp only [putOps, List.map_append, List.map_cons, List.map_nil] at hrun ⊢
      rw [run_append, hrun]
      simp [run, step, hput]
    · rw [(Put_capacity hput).1, hcapw]
    · have hlen : (kvs ++ [kv]).length = kvs.length + 1 := by simp
      have hwa : windowAfter w.1.capacity (kvs.drop (kvs.length - m)) (kv.1, kv.2) =
          (kvs ++ [kv]).drop ((kvs ++ [kv]).length - m) := by
        rw [hlen, hcapw]
        simp only [windowAfter, List.length_drop, Prod.mk.eta]
        by_cases hle : m ≤ kvs.length
        · have h1 : ((kvs.length - (kvs.length - m) : Nat) : Int) = (m : Int) := by
            congr 1; omega
          rw [if_pos h1, List.tail_drop]
          have h2 : kvs.length + 1 - m = kvs.length - m + 1 := by omega
          rw [h2, List.drop_append_of_le_length (by omega)]
        · have h1 : ¬ (((kvs.length - (kvs.length - m) : Nat) : Int) = (m : Int)) := by
            intro h; have := Int.ofNat.inj h; omega
          rw [if_neg h1]
          have h2 : kvs.length - m = 0 := by omega
          have h3 : kvs.length + 1 - m = 0 := by omega
          rw [h2, h3]; rfl
      rw [← hwa]
      exact hwin1

/-! ## More facts about `Put`, the sweep and `getValue` -/

theorem Put_lookup {c c1 : Cache} {now : Int} {k v : String} (hp : c.Put now k v = some c1) :
    c1.data.lookup k = some v := by
  rcases Put_cases hp with ⟨_, rfl⟩ | ⟨_, r, rs, _, rfl⟩ <;> exact AList.lookup_insert _

theorem Put_getLast {c c1 : Cache} {now : Int} {k v : String} (hp : c.Put now k v = some c1) :
    c1.expiryQueue.records.getLast? = some ⟨k, now + c.expiry⟩ := by
  rcases Put_cases hp with ⟨_, rfl⟩ | ⟨_, r, rs, _, rfl⟩ <;> simp [ExpiryQueue.push]

theorem size_eq_zero_of_forall_not_mem (c : Cache) (h : ∀ k, k ∉ c.data) : c.Size = 0 := by
  rw [Cache.Size, goMap_eq_empty_of_forall_not_mem c.data h]
  rfl

/-- A lookup of a key the cache holds: no store call, nothing changes. -/
theorem getValue_hit (a : App) (now : Int) (k v : String) (h : a.Cache.data.lookup k = some v) :
    getValue a now k = some ⟨v, none, a, []⟩ := by
  simp [getValue, Cache.Get, h]

/-- A lookup of a key the cache does not hold, the store answering with an error. -/
theorem getValue_miss_err (a : App) (now : Int) (k x e : String)
    (h : a.Cache.data.lookup k = none) (hs : a.client k = (x, some e)) :
    getValue a now k = some ⟨"", some e, a, [k]⟩ := by
  simp [getValue, Cache.Get, h, hs]

/-- A lookup of a key the cache does not hold, the store answering with a value. -/
theorem getValue_miss_ok (a : App) (now : Int) (k v : String)
    (h : a.Cache.data.lookup k = none) (hs : a.client k = (v, none)) :
    getValue a now k =
      (a.Cache.Put now k v).map fun c1 => ⟨v, none, { a with Cache := c1 }, [k]⟩ := by
  simp only [getValue, Cache.Get, h, hs]
  cases a.Cache.Put now k v <;> rfl

/-! ## The claims -/

/-- C1, evaluated where it fails: on a cache of capacity 2 the sequential calls
`Put(a)`, `Put(a)`, `Put(b)`, `Put(c)`, `Put(d)` all return and leave `Size() = 3`.
The second `Put(a)` leaves two records of `a` in the queue; `Put(c)` pops the first
and deletes `a`; `Put(d)` finds the cache full again, pops the second record of `a`,
deletes nothing, and inserts a third key. -/
theorem C1_repeated_key_exceeds_capacity :
    (run (fun n => (n : Int))
        [.put "a" "1", .put "a" "2", .put "b" "3", .put "c" "4", .put "d" "5"]
        (NewCache 2 10, 0)).map
      (fun w => (w.1.Size, w.1.capacity, w.1.data.keys, w.1.expiryQueue.keys)) =
      some (3, 2, ["d", "c", "b"], ["b", "c", "d"]) := by
  decide

/-- C2: for every capacity of at least one and every list of pairs with pairwise
distinct keys, the `Put`s of the pairs into a fresh cache, in order and with no other
call in between, all return; afterwards `Size()` is the minimum of the number of
pairs and the capacity, `Get` finds exactly the keys of the last that many pairs, with
the values put; and when there is one pair more than the capacity, the first key is
absent and all the others are present. -/
theorem C2_fifo_eviction (clock : Nat → Int) (capacity expiry : Int) (hcap : 1 ≤ capacity)
    (kvs : List (String × String)) (hnd : (kvs.map Prod.fst).Nodup) :
    ∃ w, run clock (putOps kvs) (NewCache capacity expiry, 0) = some w ∧
      w.1.Size = min (kvs.length : Int) capacity ∧
      (∀ k, (w.1.Get k).1.2 = true ↔
        k ∈ (kvs.map Prod.fst).drop (kvs.length - min kvs.length capacity.toNat)) ∧
      (∀ kv ∈ kvs.drop (kvs.length - min kvs.length capacity.toNat),
        (w.1.Get kv.1).1 = (kv.2, true)) ∧
      ((kvs.length : Int) = capacity + 1 → ∀ k0 rest, kvs.map Prod.fst = k0 :: rest →
        (w.1.Get k0).1.2 = false ∧ ∀ k ∈ rest, (w.1.Get k).1.2 = true) := by
  obtain ⟨m, rfl⟩ := Int.eq_ofNat_of_zero_le (by omega : 0 ≤ capacity)
  have hm : 1 ≤ m := by exact_mod_cast hcap
  obtain ⟨w, hrun, _, hwin⟩ := putOps_window clock m hm expiry kvs hnd
  have hd : kvs.length - min kvs.length (m : Int).toNat = kvs.length - m := by
    simp only [Int.toNat_ofNat]; omega
  rw [hd]
  have hfound : ∀ k, (w.1.Get k).1.2 = true ↔
      k ∈ (kvs.map Prod.fst).drop (kvs.length - m) := by
    intro k
    rw [Get_found_iff, window_mem hwin, List.map_drop]
  refine ⟨w, hrun, ?_, hfound, ?_, ?_⟩
  · rw [window_size hwin, List.length_drop]
    omega
  · intro kv hkv
    exact Get_eq_of_lookup _ _ _ ((hwin.2.2 kv.1 kv.2).mpr hkv)
  · intro hlen k0 rest hkeys
    have hl : kvs.length = m + 1 := by exact_mod_cast hlen
    have hdrop : (kvs.map Prod.fst).drop (kvs.length - m) = rest := by
      rw [hkeys, hl]; simp
    have hk0 : k0 ∉ rest := by
      rw [hkeys] at hnd
      exact (List.nodup_cons.mp hnd).1
    refine ⟨?_, ?_⟩
    · rw [← hdrop] at hk0
      have := (hfound k0).not.mpr hk0
      simpa using this
    · intro k hk
      rw [← hdrop] at hk
      exact (hfound k).mpr hk

/-- C2 at capacity 2 with the three pairs `a`, `b`, `c`: the oldest key `a` is gone,
`b` and `c` are found. -/
theorem C2_fifo_eviction_witness :
    (1 : Int) ≤ 2 ∧ ([("a", "1"), ("b", "2"), ("c", "3")].map Prod.fst).Nodup ∧
      ∃ w, run (fun n => (n : Int)) (putOps [("a", "1"), ("b", "2"), ("c", "3")])
          (NewCache 2 10, 0) = some w ∧
        w.1.Size = 2 ∧ (w.1.Get "a").1.2 = false ∧ (w.1.Get "b").1 = ("2", true) ∧
        (w.1.Get "c").1 = ("3", true) := by
  refine ⟨by decide, by decide, ?_⟩
  obtain ⟨w, hrun, hsize, _, hval, hlast⟩ :=
    C2_fifo_eviction (fun n => (n : Int)) 2 10 (by decide)
      [("a", "1"), ("b", "2"), ("c", "3")] (by decide)
  have h3 := hlast (by decide) "a" ["b", "c"] (by decide)
  exact ⟨w, hrun, by simpa using hsize, h3.1, hval ("b", "2") (by decide),
    hval ("c", "3") (by decide)⟩

/-- C3, evaluated where it fails: capacity 2, expiry 100, `Put(a)` at time 0 and
`Put(b)` at time 60, so that the record of `b` expires at 160; a sweep whose clock
readings are 102 and 103 pops the record of `a`, does not read the new head, compares
the expiration of `a` again and pops the record of `b`: `Get(b)` was `("2", true)`
before the sweep and is `("", false)` after it. -/
theorem C3_sweep_removes_unexpired_key :
    (run (fun n => [0, 60, 102, 103].getD n 200) [.put "a" "1", .put "b" "2"]
        (NewCache 2 100, 0)).map
      (fun w => (w.1.expiryQueue.records, (w.1.Get "b").1, w.2)) =
      some ([⟨"a", 100⟩, ⟨"b", 160⟩], ("2", true), 2) ∧
    (run (fun n => [0, 60, 102, 103].getD n 200) [.put "a" "1", .put "b" "2", .sweep]
        (NewCache 2 100, 0)).map
      (fun w => (w.1.expiryQueue.records, (w.1.Get "b").1, w.2)) =
      some ([], ("", false), 4) := by
  decide

/-- C4: under a clock that never goes back, in every state reached from a fresh
cache by a sequence of calls, a sweep returns, and with `now` its first clock
reading: no record left in the queue has an expiration at or before `now`; the key
of every record that had one is absent from the map; and if every record had one,
`Size()` is zero afterwards. -/
theorem C4_sweep_removes_expired (clock : Nat → Int) (hmono : Monotone clock)
    (capacity expiry : Int) (w : Cache × Nat) (hw : Reachable clock capacity expiry w) :
    ∃ w1, step clock w Op.sweep = some w1 ∧
      (∀ r ∈ w1.1.expiryQueue.records, clock w.2 < r.expiration) ∧
      (∀ r ∈ w.1.expiryQueue.records, r.expiration ≤ clock w.2 → r.key ∉ w1.1.data) ∧
      ((∀ r ∈ w.1.expiryQueue.records, r.expiration ≤ clock w.2) → w1.1.Size = 0) := by
  have htr : Tracked w.1 := (inv_of_reachable hw).1
  have hord := (ordered_of_reachable hmono hw).1
  cases hq : w.1.expiryQueue.records with
  | nil =>
    refine ⟨(w.1, w.2 + 0), ?_, ?_, ?_, ?_⟩
    · simp [step, removeExpiredKeys_nil w.1 _ hq]
    · intro r hr
      rw [hq] at hr
      cases hr
    · intro r hr
      cases hr
    · intro _
      apply size_eq_zero_of_forall_not_mem
      intro k hk
      have := htr k hk
      simp [ExpiryQueue.keys, hq] at this
  | cons r rs =>
    rw [hq] at hord
    have hhead : ∀ x ∈ r :: rs, r.expiration ≤ x.expiration := by
      intro x hx
      rcases List.mem_cons.mp hx with hx | hx
      · rw [hx]
      · exact (List.pairwise_cons.mp hord).1 x hx
    by_cases hexp : r.expiration ≤ clock w.2
    · have hsweep := removeExpiredKeys_expired w.1 (fun i => clock (w.2 + i)) r rs hq
        (fun j => hmono (by omega)) (by simpa using hexp)
      refine ⟨({ w.1 with
          data := eraseKeys w.1.data w.1.expiryQueue.records, expiryQueue := ⟨[]⟩ },
        w.2 + w.1.expiryQueue.records.length), ?_, ?_, ?_, ?_⟩
      · simp [step, hsweep]
      · intro x hx
        cases hx
      · intro x hx _
        show x.key ∉ eraseKeys w.1.data w.1.expiryQueue.records
        rw [mem_eraseKeys, hq]
        exact fun h => h.2 (List.mem_map.mpr ⟨x, hx, rfl⟩)
      · intro _
        apply size_eq_zero_of_forall_not_mem
        intro k
        show k ∉ eraseKeys w.1.data w.1.expiryQueue.records
        rw [mem_eraseKeys]
        exact fun h => h.2 (htr k h.1)
    · have hlt : clock w.2 < r.expiration := not_le.mp hexp
      have hsweep := removeExpiredKeys_fresh w.1 (fun i => clock (w.2 + i)) r rs hq
        (by simpa using hlt)
      have hall : ∀ x ∈ r :: rs, clock w.2 < x.expiration :=
        fun x hx => lt_of_lt_of_le hlt (hhead x hx)
      refine ⟨(w.1, w.2 + 1), ?_, ?_, ?_, ?_⟩
      · simp [step, hsweep]
      · intro x hx
        rw [hq] at hx
        exact hall x hx
      · intro x hx hx2
        exact absurd hx2 (not_le.mpr (hall x hx))
      · intro h
        exact absurd (h r (List.mem_cons_self r rs)) hexp

/-- C4 on a cache of capacity 2 and expiry 1 after `Put(a)` and `Put(b)` at times 0
and 1: the sweep at time 2 finds both records expired and leaves `Size() = 0`. -/
theorem C4_sweep_removes_expired_witness :
    Monotone (fun n : Nat => (n : Int)) ∧
      Reachable (fun n => (n : Int)) 2 1
        ({ data := (AList.insert "a" "1" ∅).insert "b" "2", capacity := 2, expiry := 1,
           expiryQueue := ⟨[⟨"a", 1⟩, ⟨"b", 2⟩]⟩ }, 2) ∧
      ∃ w1, step (fun n => (n : Int))
          ({ data := (AList.insert "a" "1" ∅).insert "b" "2", capacity := 2, expiry := 1,
             expiryQueue := ⟨[⟨"a", 1⟩, ⟨"b", 2⟩]⟩ }, 2) Op.sweep = some w1 ∧
        w1.1.expiryQueue.records = [] ∧ w1.1.Size = 0 := by
  have hmono : Monotone (fun n : Nat => (n : Int)) := fun a b h => Int.ofNat_le.mpr h
  have hreach : Reachable (fun n => (n : Int)) 2 1
      ({ data := (AList.insert "a" "1" ∅).insert "b" "2", capacity := 2, expiry := 1,
         expiryQueue := ⟨[⟨"a", 1⟩, ⟨"b", 2⟩]⟩ }, 2) :=
    ⟨[.put "a" "1", .put "b" "2"], rfl⟩
  obtain ⟨w1, hstep, hleft, _, hzero⟩ :=
    C4_sweep_removes_expired (fun n => (n : Int)) hmono 2 1 _ hreach
  refine ⟨hmono, hreach, w1, hstep, ?_, hzero (by decide)⟩
  cases hrec : w1.1.expiryQueue.records with
  | nil => rfl
  | cons x xs =>
    have hx := hleft x (by rw [hrec]; exact List.mem_cons_self x xs)
    have hs : step (fun n => (n : Int))
        ({ data := (AList.insert "a" "1" ∅).insert "b" "2", capacity := 2, expiry := 1,
           expiryQueue := ⟨[⟨"a", 1⟩, ⟨"b", 2⟩]⟩ }, 2) Op.sweep =
        some ({ data := ∅, capacity := 2, expiry := 1, expiryQueue := ⟨[]⟩ }, 4) := rfl
    rw [hs] at hstep
    rw [← Option.some.inj hstep] at hrec
    cases hrec

/-- C5: in every state of a cache of capacity at least one reached by a sequence of
calls, for every key `k` that `Get` does not find and every store that answers
`(v, nil)` for `k`: `getValue(k)` returns `(v, nil)` after asking the store for `k`
once, `Get(k)` then returns `(v, true)`, and the `getValue(k)` that follows at once
returns `(v, nil)` without asking the store and without changing the cache. -/
theorem C5_read_through_population (a : App) (clock : Nat → Int) (capacity expiry : Int)
    (t : Nat) (hreach : Reachable clock capacity expiry (a.Cache, t)) (hcap : 1 ≤ capacity)
    (k v : String) (habs : (a.Cache.Get k).1.2 = false) (hstore : a.client k = (v, none))
    (now now2 : Int) :
    ∃ l1 l2, getValue a now k = some l1 ∧ l1.value = v ∧ l1.err = none ∧
      l1.storeCalls = [k] ∧ (l1.app.Cache.Get k).1 = (v, true) ∧
      getValue l1.app now2 k = some l2 ∧ l2.value = v ∧ l2.err = none ∧
      l2.storeCalls = [] ∧ l2.app = l1.app := by
  obtain ⟨htr, hc, _⟩ := inv_of_reachable hreach
  have hnone : a.Cache.data.lookup k = none := by
    rw [Get_fst] at habs
    simpa using habs
  obtain ⟨c1, hput⟩ := Put_returns htr (by rw [hc]; exact hcap) now k v
  have hlook := Put_lookup hput
  have h1 : getValue a now k = some ⟨v, none, { a with Cache := c1 }, [k]⟩ := by
    rw [getValue_miss_ok a now k v hnone hstore, hput]; rfl
  exact ⟨_, _, h1, rfl, rfl, rfl, Get_eq_of_lookup c1 k v hlook,
    getValue_hit { a with Cache := c1 } now2 k v hlook, rfl, rfl, rfl, rfl⟩

/-- C5 on a full cache of capacity 1 holding `x`: the lookup of `hello`, which the
store holds with value `world`, evicts `x`, returns `world` and caches it. -/
theorem C5_read_through_population_witness :
    Reachable (fun n => (n : Int)) 1 10
        ({ data := AList.insert "x" "y" ∅, capacity := 1, expiry := 10,
           expiryQueue := ⟨[⟨"x", 10⟩]⟩ }, 1) ∧
      ∃ l1 l2,
        getValue ⟨fun k => if k = "hello" then ("world", none) else ("", some "redis: nil"),
            { data := AList.insert "x" "y" ∅, capacity := 1, expiry := 10,
              expiryQueue := ⟨[⟨"x", 10⟩]⟩ }⟩ 1 "hello" = some l1 ∧
          l1.value = "world" ∧ l1.err = none ∧ l1.storeCalls = ["hello"] ∧
          (l1.app.Cache.Get "hello").1 = ("world", true) ∧
          getValue l1.app 2 "hello" = some l2 ∧ l2.value = "world" ∧ l2.err = none ∧
          l2.storeCalls = [] ∧ l2.app = l1.app :=
  ⟨⟨[.put "x" "y"], rfl⟩,
    C5_read_through_population
      ⟨fun k => if k = "hello" then ("world", none) else ("", some "redis: nil"),
        { data := AList.insert "x" "y" ∅, capacity := 1, expiry := 10,
          expiryQueue := ⟨[⟨"x", 10⟩]⟩ }⟩
      (fun n => (n : Int)) 1 10 1 ⟨[.put "x" "y"], rfl⟩ (by decide) "hello" "world"
      (by decide) (by decide) 1 2⟩

/-- C6: `getValue(k)` returns an error exactly when `Get` does not find `k` and the
store answers with an error; the error returned is the one of the store, the value
returned is the empty string, the store was asked once and the application, its
cache with map and queue included, is as before (a `Put` would have lengthened the
queue); `GetValue` then answers with status 404 for such a key and with 404 only
then. -/
theorem C6_lookup_failure (a : App) (now : Int) (k : String) :
    ((∃ l e, getValue a now k = some l ∧ l.err = some e) ↔
      ((a.Cache.Get k).1.2 = false ∧ ∃ e, (a.client k).2 = some e)) ∧
    (∀ l e, getValue a now k = some l → l.err = some e →
      l.value = "" ∧ (a.client k).2 = some e ∧ l.storeCalls = [k] ∧ l.app = a) ∧
    (∀ vars : GoMap, vars.lookup pathKey = some k →
      ((∃ body a1, GetValue a now vars = some (⟨404, body⟩, a1)) ↔
        ((a.Cache.Get k).1.2 = false ∧ ∃ e, (a.client k).2 = some e)) ∧
      (∀ body a1, GetValue a now vars = some (⟨404, body⟩, a1) → body = "" ∧ a1 = a)) := by
  have key : ∀ l e, getValue a now k = some l → l.err = some e →
      (a.Cache.Get k).1.2 = false ∧ l.value = "" ∧ (a.client k).2 = some e ∧
        l.storeCalls = [k] ∧ l.app = a := by
    intro l e hl he
    cases hlook : a.Cache.data.lookup k with
    | some v =>
      rw [getValue_hit a now k v hlook] at hl
      rw [← Option.some.inj hl] at he
      cases he
    | none =>
      rcases hst : a.client k with ⟨x, _ | e2⟩
      · rw [getValue_miss_ok a now k x hlook hst] at hl
        cases hput : a.Cache.Put now k x with
        | none => rw [hput] at hl; cases hl
        | some c1 =>
          rw [hput] at hl
          rw [← Option.some.inj hl] at he
          cases he
      · rw [getValue_miss_err a now k x e2 hlook hst] at hl
        rw [← Option.some.inj hl] at he ⊢
        refine ⟨?_, rfl, ?_, rfl, rfl⟩
        · rw [Get_fst, hlook]; rfl
        · exact he
  have conv : (a.Cache.Get k).1.2 = false → ∀ e, (a.client k).2 = some e →
      getValue a now k = some ⟨"", some e, a, [k]⟩ := by
    intro habs e he
    have hnone : a.Cache.data.lookup k = none := by
      rw [Get_fst] at habs
      simpa using habs
    exact getValue_miss_err a now k (a.client k).1 e hnone (by rw [← he])
  refine ⟨⟨?_, ?_⟩, ?_, ?_⟩
  · rintro ⟨l, e, hl, he⟩
    have := key l e hl he
    exact ⟨this.1, e, this.2.2.1⟩
  · rintro ⟨habs, e, he⟩
    exact ⟨_, e, conv habs e he, rfl⟩
  · intro l e hl he
    exact (key l e hl he).2
  · intro vars hvars
    have hG : GetValue a now vars =
        match getValue a now k with
        | none => none
        | some l => some (⟨if l.err.isSome then 404 else 200, l.value⟩, l.app) := by
      simp only [GetValue, hvars]
    rw [hG]
    refine ⟨⟨?_, ?_⟩, ?_⟩
    · rintro ⟨body, a1, h⟩
      cases hl : getValue a now k with
      | none => rw [hl] at h; cases h
      | some l =>
        rw [hl] at h
        cases he : l.err with
        | none =>
          simp [he] at h
        | some e =>
          have := key l e hl he
          exact ⟨this.1, e, this.2.2.1⟩
    · rintro ⟨habs, e, he⟩
      rw [conv habs e he]
      exact ⟨"", a, rfl⟩
    · intro body a1 h
      cases hl : getValue a now k with
      | none => rw [hl] at h; cases h
      | some l =>
        rw [hl] at h
        cases he : l.err with
        | none =>
          simp [he] at h
        | some e =>
          have hk := key l e hl he
          simp only [he, Option.isSome_some, if_true, Option.some.injEq, Prod.mk.injEq,
            Response.mk.injEq, true_and] at h
          exact ⟨by rw [← h.1, hk.2.1], by rw [← h.2, hk.2.2.2.2]⟩

/-- C7: in every state of a cache of capacity at least one reached by a sequence of
calls, for every key `k`, value `v` and clock reading `now`, `Put(k, v)` returns,
after it `Get(k)` returns `(v, true)`, and the last record of the queue is
`(k, now + expiry)`; whether the `Put` evicted an entry, and which, plays no part. -/
theorem C7_put_then_get (clock : Nat → Int) (capacity expiry : Int) (w : Cache × Nat)
    (hcap : 1 ≤ capacity) (hw : Reachable clock capacity expiry w) (k v : String)
    (now : Int) :
    ∃ c1, w.1.Put now k v = some c1 ∧ (c1.Get k).1 = (v, true) ∧
      c1.expiryQueue.records.getLast? = some ⟨k, now + expiry⟩ := by
  obtain ⟨htr, hc, he⟩ := inv_of_reachable hw
  obtain ⟨c1, hput⟩ := Put_returns htr (by rw [hc]; exact hcap) now k v
  exact ⟨c1, hput, Get_eq_of_lookup c1 k v (Put_lookup hput), by rw [Put_getLast hput, he]⟩

/-- C7 on a full cache of capacity 1 holding `a`: `Put(a, 2)` at time 5 evicts `a`
itself and inserts it again. -/
theorem C7_put_then_get_witness :
    (1 : Int) ≤ 1 ∧
      Reachable (fun n => (n : Int)) 1 10
        ({ data := AList.insert "a" "1" ∅, capacity := 1, expiry := 10,
           expiryQueue := ⟨[⟨"a", 10⟩]⟩ }, 1) ∧
      ∃ c1,
        Cache.Put
            { data := AList.insert "a" "1" ∅, capacity := 1, expiry := 10,
              expiryQueue := ⟨[⟨"a", 10⟩]⟩ }
            5 "a" "2" = some c1 ∧
        (c1.Get "a").1 = ("2", true) ∧
        c1.expiryQueue.records.getLast? = some ⟨"a", 5 + 10⟩ :=
  ⟨by decide, ⟨[.put "a" "1"], rfl⟩,
    C7_put_then_get (fun n => (n : Int)) 1 10
      ({ data := AList.insert "a" "1" ∅, capacity := 1, expiry := 10,
         expiryQueue := ⟨[⟨"a", 10⟩]⟩ }, 1)
      (by decide) ⟨[.put "a" "1"], rfl⟩ "a" "2" 5⟩

/-- C8: for every cache and key, `Get` returns the value the map holds for the key
(the empty string when it holds none) with the presence flag, and the cache after the
call is the cache before it: same map, same queue records in the same order with the
same expirations, same capacity and expiry. Hence a `Put` or a sweep after the `Get`
does what it would have done without it. -/
theorem C8_get_has_no_side_effect (c : Cache) (key : String) :
    (c.Get key).1 = ((c.data.lookup key).getD "", (c.data.lookup key).isSome) ∧
      (c.Get key).2 = c ∧
      (c.Get key).2.data = c.data ∧
      (c.Get key).2.expiryQueue.records = c.expiryQueue.records ∧
      (c.Get key).2.capacity = c.capacity ∧
      (c.Get key).2.expiry = c.expiry ∧
      (∀ now k v, (c.Get key).2.Put now k v = c.Put now k v) ∧
      (∀ clock, (c.Get key).2.removeExpiredKeys clock = c.removeExpiredKeys clock) := by
  refine ⟨Get_fst c key, Get_snd c key, ?_, ?_, ?_, ?_, ?_, ?_⟩ <;>
    (try intros) <;> rw [Get_snd]

/-- C9: for every cache, after `Clear()` the size is zero, `Get` of every key returns
the empty string and `false`, the queue has no record, `peek` returns `nil`, `pop`
returns `nil` and leaves the queue empty, and the capacity and the expiry are as
before. -/
theorem C9_clear_resets_state (c : Cache) :
    c.Clear.Size = 0 ∧
      (∀ k, (c.Clear.Get k).1 = ("", false)) ∧
      c.Clear.expiryQueue.records = [] ∧
      c.Clear.expiryQueue.peek = none ∧
      c.Clear.expiryQueue.pop = (none, ⟨[]⟩) ∧
      c.Clear.capacity = c.capacity ∧
      c.Clear.expiry = c.expiry := by
  refine ⟨rfl, ?_, rfl, rfl, rfl, rfl, rfl⟩
  intro k
  rw [Get_fst]
  rfl

/-- C10, evaluated where it fails, on a cache of capacity 2. After `Put(a)`, `Put(a)`
the one key of the map has two records in the queue. After `Put(a)`, `Put(a)`,
`Put(b)`, `Put(c)` the map holds `b` and `c` while the queue still has a record of
`a`, which names no key of the map. -/
theorem C10_repeated_key_breaks_correspondence :
    (run (fun n => (n : Int)) [.put "a" "1", .put "a" "2"] (NewCache 2 10, 0)).map
        (fun w => (w.1.data.keys, w.1.expiryQueue.keys)) = some (["a"], ["a", "a"]) ∧
    (run (fun n => (n : Int)) [.put "a" "1", .put "a" "2", .put "b" "3", .put "c" "4"]
        (NewCache 2 10, 0)).map
        (fun w => (w.1.data.keys, w.1.expiryQueue.keys)) =
      some (["c", "b"], ["a", "b", "c"]) := by
  decide

/-! ## Further facts used by the claims below -/

/-- Every sequence of calls returns from a tracked cache of capacity at least one. -/
theorem run_returns (clock : Nat → Int) (capacity expiry : Int) (hcap : 1 ≤ capacity) :
    ∀ (ops : List Op) (w : Cache × Nat), Inv capacity expiry w →
      ∃ w1, run clock ops w = some w1 := by
  intro ops
  induction ops with
  | nil => intro w _; exact ⟨w, rfl⟩
  | cons op ops ih =>
    intro w hw
    obtain ⟨w2, h2⟩ := step_returns clock w op hw.1 (by rw [hw.2.1]; exact hcap)
    obtain ⟨w1, h1⟩ := ih w2 (inv_step clock capacity expiry w op w2 hw h2)
    exact ⟨w1, by simp only [run, h2]; exact h1⟩

/-- A call of `Put` whose sections run one after the other with no other call in
between is the method `Put`. -/
theorem putCall_alone (key value : String) (now : Int) (c : Cache) :
    PutCall.alone key value now c =
      (c.Put now key value).map fun c1 => (⟨key, value, .finished⟩, c1) := by
  by_cases hs : c.Size = c.capacity
  · cases hq : c.expiryQueue.records with
    | nil =>
      rw [Put_of_size_eq_nil c now key value hs hq]
      simp [PutCall.alone, PutCall.advance, hs, ExpiryQueue.pop, hq]
    | cons r rs =>
      rw [Put_of_size_eq_cons c now key value r rs hs hq]
      simp [PutCall.alone, PutCall.advance, hs, ExpiryQueue.pop, hq, Cache.deleteKey,
        ExpiryQueue.push]
  · rw [Put_of_size_ne c now key value hs]
    simp [PutCall.alone, PutCall.advance, hs]

/-- A `Put` on a cache that is not full appends one record and pops none. -/
theorem Put_records_of_size_ne {c c1 : Cache} {now : Int} {k v : String}
    (hs : c.Size ≠ c.capacity) (hp : c.Put now k v = some c1) :
    c1.expiryQueue.records = c.expiryQueue.records ++ [⟨k, now + c.expiry⟩] ∧
      c1.data = c.data.insert k v ∧ c1.capacity = c.capacity := by
  rw [Put_of_size_ne c now k v hs] at hp
  rw [← Option.some.inj hp]
  exact ⟨rfl, rfl, rfl⟩

theorem size_insert_of_mem (c : Cache) (m : GoMap) (k v : String) (hm : c.data = m.insert k v)
    (hk : k ∈ m) : c.Size = (m.keys.length : Int) := by
  rw [size_eq_keys_length, hm, goMap_length_insert_of_mem m k v hk]

theorem size_insert_of_not_mem (c : Cache) (m : GoMap) (k v : String)
    (hm : c.data = m.insert k v) (hk : k ∉ m) : c.Size = (m.keys.length : Int) + 1 := by
  rw [size_eq_keys_length, hm, goMap_length_insert_of_not_mem m k v hk]
  push_cast; rfl

/-- From a cache whose size is above its capacity, the `Put`s of pairwise distinct
keys that the map does not hold all return, pop nothing, and add one entry each. -/
theorem putOps_above_capacity (clock : Nat → Int) :
    ∀ (kvs : List (String × String)) (c : Cache) (t : Nat), c.capacity < c.Size →
      (kvs.map Prod.fst).Nodup → (∀ k ∈ kvs.map Prod.fst, k ∉ c.data) →
      ∃ w, run clock (putOps kvs) (c, t) = some w ∧ w.1.capacity = c.capacity ∧
        w.1.Size = c.Size + (kvs.length : Int) ∧
        w.1.expiryQueue.records.length = c.expiryQueue.records.length + kvs.length := by
  intro kvs
  induction kvs with
  | nil => intro c t _ _ _; exact ⟨(c, t), rfl, rfl, by simp, by simp⟩
  | cons kv kvs ih =>
    intro c t hgt hnd hnew
    have hs : c.Size ≠ c.capacity := by omega
    have hput := Put_of_size_ne c (clock t) kv.1 kv.2 hs
    obtain ⟨hrec, hdata, hcap⟩ := Put_records_of_size_ne hs hput
    have hkv : kv.1 ∉ c.data := hnew kv.1 (by simp)
    have hsize := size_insert_of_not_mem _ c.data kv.1 kv.2 hdata hkv
    rw [← size_eq_keys_length] at hsize
    simp only [List.map_cons, List.nodup_cons] at hnd
    obtain ⟨w, hrun, hwcap, hwsize, hwlen⟩ := ih _ (t + 1) (by rw [hcap, hsize]; omega) hnd.2
      (by
        intro k hk
        rw [hdata, AList.mem_insert]
        rintro (h | h)
        · rw [h] at hk; exact hnd.1 hk
        · exact hnew k (by simp only [List.map_cons, List.mem_cons]; exact Or.inr hk) h)
    refine ⟨w, ?_, ?_, ?_, ?_⟩
    · simp only [putOps, List.map_cons, run, step, hput, Option.map_some']
      exact hrun
    · rw [hwcap, hcap]
    · rw [hwsize, hsize, List.length_cons]; push_cast; omega
    · rw [hwlen, hrec, List.length_cons, List.length_append, List.length_singleton]; omega

/-! ## The claims, continued -/

/-- C11, evaluated where it fails, on a cache of capacity 2 with a repeated key. After
`Put(a)`, `Put(a)`, `Put(b)`, `Put(c)` the cache is full, the head of the queue is the
second record of `a`, and `a` is not in the map. The next call `Put(d)` therefore
finds the cache full, pops a record whose key is absent, removes no entry, and leaves
three entries. -/
theorem C11_eviction_pops_absent_key :
    (run (fun n => (n : Int)) [.put "a" "1", .put "a" "2", .put "b" "3", .put "c" "4"]
        (NewCache 2 10, 0)).map
      (fun w => (w.1.Size, w.1.capacity, w.1.expiryQueue.peek, (w.1.Get "a").1,
        w.1.data.keys)) =
      some (2, 2, some ⟨"a", 11⟩, ("", false), ["c", "b"]) ∧
    (run (fun n => (n : Int))
        [.put "a" "1", .put "a" "2", .put "b" "3", .put "c" "4", .put "d" "5"]
        (NewCache 2 10, 0)).map
      (fun w => (w.1.Size, w.1.expiryQueue.peek, w.1.data.keys)) =
      some (3, some ⟨"b", 12⟩, ["d", "c", "b"]) := by
  constructor <;> rfl

/-- C12: under a clock that never goes back, in every state reached from a fresh
cache (whose expiry is fixed at its creation) by a sequence of `Put`, `Get`, `Clear`
and sweep calls, the expiration of a queue record is at most the expiration of every
record behind it. -/
theorem C12_monotone_expiry_order (clock : Nat → Int) (hmono : Monotone clock)
    (capacity expiry : Int) (w : Cache × Nat) (hw : Reachable clock capacity expiry w) :
    w.1.expiryQueue.records.Pairwise (fun a b => a.expiration ≤ b.expiration) :=
  (ordered_of_reachable hmono hw).1

/-- C12 on the state after `Put(a)`, `Clear()`, `Put(b)`, `Put(a)`, `Put(c)` on a cache
of capacity 2 and expiry 10 under the clock 0, 1, 2, ... -/
theorem C12_monotone_expiry_order_witness :
    Monotone (fun n : Nat => (n : Int)) ∧
      Reachable (fun n => (n : Int)) 2 10
        ({ data := (AList.insert "a" "3" ∅).insert "c" "4", capacity := 2, expiry := 10,
           expiryQueue := ⟨[⟨"a", 12⟩, ⟨"c", 13⟩]⟩ }, 4) ∧
      List.Pairwise (fun a b : KeyExpiry => a.expiration ≤ b.expiration)
        [⟨"a", 12⟩, ⟨"c", 13⟩] :=
  ⟨fun _ _ h => Int.ofNat_le.mpr h,
    ⟨[.put "a" "1", .clear, .put "b" "2", .put "a" "3", .put "c" "4"], rfl⟩,
    C12_monotone_expiry_order (fun n => (n : Int)) (fun _ _ h => Int.ofNat_le.mpr h) 2 10
      ({ data := (AList.insert "a" "3" ∅).insert "c" "4", capacity := 2, expiry := 10,
         expiryQueue := ⟨[⟨"a", 12⟩, ⟨"c", 13⟩]⟩ }, 4)
      ⟨[.put "a" "1", .clear, .put "b" "2", .put "a" "3", .put "c" "4"], rfl⟩⟩

/-- C13: for every capacity of at least one, every clock and every sequence of `Put`
(any keys), `Get`, `Clear` and sweep calls on a fresh cache, every call returns; and
in the state reached, a full cache has a queue head, so that the `pop` of the
eviction branch returns a record, every further `Put` returns, and every sweep
returns. -/
theorem C13_no_panic (clock : Nat → Int) (capacity expiry : Int) (hcap : 1 ≤ capacity)
    (ops : List Op) :
    ∃ w, run clock ops (NewCache capacity expiry, 0) = some w ∧
      (w.1.Size = w.1.capacity → ∃ r q, w.1.expiryQueue.pop = (some r, q)) ∧
      (∀ now k v, ∃ c1, w.1.Put now k v = some c1) ∧
      (∀ clk, ∃ r, w.1.removeExpiredKeys clk = some r) := by
  have h0 : Inv capacity expiry (NewCache capacity expiry, 0) :=
    ⟨tracked_NewCache capacity expiry, rfl, rfl⟩
  obtain ⟨w, hw⟩ := run_returns clock capacity expiry hcap ops _ h0
  obtain ⟨htr, hc, _⟩ := inv_of_reachable ⟨ops, hw⟩
  have hcapw : 1 ≤ w.1.capacity := by rw [hc]; exact hcap
  refine ⟨w, hw, ?_, fun now k v => Put_returns htr hcapw now k v,
    fun clk => removeExpiredKeys_returns w.1 clk⟩
  intro hs
  cases hq : w.1.expiryQueue.records with
  | nil => exact absurd hq (records_ne_nil_of_full htr hcapw hs)
  | cons r rs => exact ⟨r, ⟨rs⟩, by simp [ExpiryQueue.pop, hq]⟩

/-- C13 at capacity 1 with a repeated key, a sweep and a `Clear` among the calls. -/
theorem C13_no_panic_witness :
    (1 : Int) ≤ 1 ∧
      ∃ w, run (fun n => (n : Int))
          [.put "a" "1", .put "a" "2", .sweep, .put "b" "3", .clear, .get "a", .put "c" "4"]
          (NewCache 1 0, 0) = some w ∧
        (w.1.Size = w.1.capacity → ∃ r q, w.1.expiryQueue.pop = (some r, q)) ∧
        (∀ now k v, ∃ c1, w.1.Put now k v = some c1) ∧
        (∀ clk, ∃ r, w.1.removeExpiredKeys clk = some r) :=
  ⟨by decide, C13_no_panic (fun n => (n : Int)) 1 0 (by decide) _⟩

/-- C15: for every cache that is not full (`Size() ≠ capacity`) and every key `k` that
its map holds, `Put(k, v)` returns, leaves `Size()` as it was, makes `Get(k)` return
`(v, true)`, and leaves in the queue all the records it had, in their order, followed
by one new record `(k, now + expiry)`; so that when `k` had a record before, it has
at least two after. -/
theorem C15_duplicate_record_on_reput (c : Cache) (now : Int) (k v : String)
    (hs : c.Size ≠ c.capacity) (hk : k ∈ c.data) :
    ∃ c1, c.Put now k v = some c1 ∧ c1.Size = c.Size ∧ (c1.Get k).1 = (v, true) ∧
      c1.expiryQueue.records = c.expiryQueue.records ++ [⟨k, now + c.expiry⟩] ∧
      c1.expiryQueue.records.length = c.expiryQueue.records.length + 1 ∧
      (∀ r ∈ c.expiryQueue.records, r ∈ c1.expiryQueue.records) ∧
      (k ∈ c.expiryQueue.keys → 2 ≤ c1.expiryQueue.keys.count k) := by
  have hput := Put_of_size_ne c now k v hs
  obtain ⟨hrec, hdata, _⟩ := Put_records_of_size_ne hs hput
  refine ⟨_, hput, ?_, Get_eq_of_lookup _ k v (Put_lookup hput), hrec, ?_, ?_, ?_⟩
  · rw [size_insert_of_mem _ c.data k v hdata hk, size_eq_keys_length]
  · rw [hrec]; simp
  · intro r hr
    rw [hrec]
    exact List.mem_append_left _ hr
  · intro hq
    simp only [ExpiryQueue.keys] at hq ⊢
    rw [hrec, List.map_append, List.count_append]
    have h1 : 0 < List.count k (c.expiryQueue.records.map KeyExpiry.key) :=
      List.count_pos_iff.mpr hq
    have h2 : List.count k (List.map KeyExpiry.key [({ key := k, expiration := now + c.expiry } : KeyExpiry)]) = 1 := by
      simp
    omega

/-- C15 on the cache of capacity 2 that holds `a`: after `Put(a, 2)` at time 1 the
size is still 1 and the queue holds two records of `a`. -/
theorem C15_duplicate_record_on_reput_witness :
    ∃ c1,
      Cache.Put
          { data := AList.insert "a" "1" ∅, capacity := 2, expiry := 10,
            expiryQueue := ⟨[⟨"a", 10⟩]⟩ }
          1 "a" "2" = some c1 ∧
        c1.Size = 1 ∧ (c1.Get "a").1 = ("2", true) ∧
        c1.expiryQueue.records = [⟨"a", 10⟩, ⟨"a", 11⟩] ∧
        2 ≤ c1.expiryQueue.keys.count "a" := by
  obtain ⟨c1, hput, hsize, hget, hrec, _, _, hcount⟩ :=
    C15_duplicate_record_on_reput
      { data := AList.insert "a" "1" ∅, capacity := 2, expiry := 10,
        expiryQueue := ⟨[⟨"a", 10⟩]⟩ }
      1 "a" "2" (by decide) (by decide)
  exact ⟨c1, hput, hsize, hget, hrec, hcount (by decide)⟩

/-- C16, evaluated where it fails: two calls `Put(a)` and `Put(b)` at the same time on
a fresh cache of capacity 1. In the interleaving where both calls compare the size
with the capacity before either inserts (sections run by call 0, 1, 0, 1), both find
the cache not full and both insert: the two calls have finished and `Size()` is 2.
When the second call starts after the first has finished (0, 0, 1, 1, 1, 1) the
final size is 1, the capacity. -/
theorem C16_interleaving_exceeds_capacity :
    (Shared.interleave (fun n => (n : Int)) [0, 1, 0, 1]
        ⟨NewCache 1 10, [⟨"a", "1", .atCheck⟩, ⟨"b", "2", .atCheck⟩], 0⟩).map
      (fun s => (s.cache.Size, s.cache.capacity, s.calls.map PutCall.pc, s.cache.data.keys)) =
      some (2, 1, [.finished, .finished], ["b", "a"]) ∧
    (Shared.interleave (fun n => (n : Int)) [0, 0, 1, 1, 1, 1]
        ⟨NewCache 1 10, [⟨"a", "1", .atCheck⟩, ⟨"b", "2", .atCheck⟩], 0⟩).map
      (fun s => (s.cache.Size, s.cache.capacity, s.calls.map PutCall.pc, s.cache.data.keys)) =
      some (1, 1, [.finished, .finished], ["b"]) := by
  constructor <;> rfl

/-- C18: for every cache and every clock that never goes back, with `now` the first
clock reading of the sweep: a sweep of an empty queue changes nothing; a sweep of a
queue whose head expires after `now` changes nothing; and a sweep of a queue whose
head expires at or before `now` returns with an empty queue and with the map from
which the key of every record of the queue has been deleted, one clock reading per
record, whatever the expirations of the records behind the head. -/
theorem C18_sweep_all_or_nothing (c : Cache) (clock : Nat → Int) (hmono : Monotone clock) :
    (c.expiryQueue.records = [] → c.removeExpiredKeys clock = some (c, 0)) ∧
    (∀ r rs, c.expiryQueue.records = r :: rs → clock 0 < r.expiration →
      c.removeExpiredKeys clock = some (c, 1)) ∧
    (∀ r rs, c.expiryQueue.records = r :: rs → r.expiration ≤ clock 0 →
      ∃ c1, c.removeExpiredKeys clock = some (c1, c.expiryQueue.records.length) ∧
        c1.expiryQueue.records = [] ∧
        c1.data = eraseKeys c.data c.expiryQueue.records ∧
        (∀ x ∈ c.expiryQueue.records, x.key ∉ c1.data) ∧
        (∀ k, k ∈ c1.data ↔ k ∈ c.data ∧ k ∉ c.expiryQueue.keys) ∧
        c1.capacity = c.capacity ∧ c1.expiry = c.expiry) := by
  refine ⟨removeExpiredKeys_nil c clock, fun r rs hq h => removeExpiredKeys_fresh c clock r rs hq h,
    ?_⟩
  intro r rs hq h
  refine ⟨_, removeExpiredKeys_expired c clock r rs hq (fun j => hmono (Nat.zero_le j)) h,
    rfl, rfl, ?_, ?_, rfl, rfl⟩
  · intro x hx
    show x.key ∉ eraseKeys c.data c.expiryQueue.records
    rw [mem_eraseKeys]
    exact fun hm => hm.2 (List.mem_map.mpr ⟨x, hx, rfl⟩)
  · intro k
    show k ∈ eraseKeys c.data c.expiryQueue.records ↔ _
    rw [mem_eraseKeys]
    rfl

/-- C18 on a queue whose head `a` expired at 5 and whose second record `b` expires
at 1000, swept at time 7: both records are popped and both keys deleted. -/
theorem C18_sweep_all_or_nothing_witness :
    Monotone (fun n : Nat => (7 : Int) + n) ∧
      ∃ c1,
        Cache.removeExpiredKeys
            { data := (AList.insert "a" "1" ∅).insert "b" "2", capacity := 2, expiry := 5,
              expiryQueue := ⟨[⟨"a", 5⟩, ⟨"b", 1000⟩]⟩ }
            (fun n => (7 : Int) + n) = some (c1, 2) ∧
          c1.expiryQueue.records = [] ∧ "b" ∉ c1.data := by
  have hmono : Monotone (fun n : Nat => (7 : Int) + n) :=
    fun a b h => by simpa using h
  obtain ⟨c1, hsweep, hrec, _, hkeys, _⟩ :=
    (C18_sweep_all_or_nothing
      { data := (AList.insert "a" "1" ∅).insert "b" "2", capacity := 2, expiry := 5,
        expiryQueue := ⟨[⟨"a", 5⟩, ⟨"b", 1000⟩]⟩ }
      (fun n => (7 : Int) + n) hmono).2.2 ⟨"a", 5⟩ [⟨"b", 1000⟩] rfl (by decide)
  exact ⟨hmono, c1, hsweep, hrec, hkeys ⟨"b", 1000⟩ (by decide)⟩

/-- C19: for every cache, a `Put` that returns has popped the head of the queue when
`Size()` was equal to the capacity and has popped nothing otherwise. So when `Size()`
is above the capacity, a `Put` of a key that the map does not hold returns, pops
nothing and makes the size one more; and every sequence of `Put`s of pairwise
distinct keys that the map does not hold returns with the size increased by the
number of the keys, above the capacity as before, and no record popped. -/
theorem C19_eviction_only_on_equality (c : Cache) :
    (∀ now k v c1, c.Put now k v = some c1 →
      (c.Size = c.capacity ∧ ∃ r rs, c.expiryQueue.records = r :: rs ∧
        c1.expiryQueue.records = rs ++ [⟨k, now + c.expiry⟩]) ∨
      (c.Size ≠ c.capacity ∧
        c1.expiryQueue.records = c.expiryQueue.records ++ [⟨k, now + c.expiry⟩])) ∧
    (c.capacity < c.Size → ∀ now k v, k ∉ c.data →
      ∃ c1, c.Put now k v = some c1 ∧
        c1.expiryQueue.records = c.expiryQueue.records ++ [⟨k, now + c.expiry⟩] ∧
        c1.Size = c.Size + 1 ∧ c1.capacity = c.capacity) ∧
    (c.capacity < c.Size → ∀ (clock : Nat → Int) (t : Nat) (kvs : List (String × String)),
      (kvs.map Prod.fst).Nodup → (∀ k ∈ kvs.map Prod.fst, k ∉ c.data) →
      ∃ w, run clock (putOps kvs) (c, t) = some w ∧ w.1.capacity = c.capacity ∧
        w.1.Size = c.Size + (kvs.length : Int) ∧ w.1.Size ≠ w.1.capacity ∧
        w.1.expiryQueue.records.length = c.expiryQueue.records.length + kvs.length) := by
  refine ⟨?_, ?_, ?_⟩
  · intro now k v c1 hput
    rcases Put_cases hput with ⟨hs, rfl⟩ | ⟨hs, r, rs, hq, rfl⟩
    · exact Or.inr ⟨hs, rfl⟩
    · exact Or.inl ⟨hs, r, rs, hq, rfl⟩
  · intro hgt now k v hk
    have hs : c.Size ≠ c.capacity := by omega
    have hput := Put_of_size_ne c now k v hs
    obtain ⟨hrec, hdata, hcap⟩ := Put_records_of_size_ne hs hput
    refine ⟨_, hput, hrec, ?_, hcap⟩
    rw [size_insert_of_not_mem _ c.data k v hdata hk, size_eq_keys_length]
  · intro hgt clock t kvs hnd hnew
    obtain ⟨w, hrun, hcap, hsize, hlen⟩ := putOps_above_capacity clock kvs c t hgt hnd hnew
    exact ⟨w, hrun, hcap, hsize, by rw [hsize, hcap]; omega, hlen⟩

/-- C19 on the cache of capacity 2 that holds `b`, `c` and `d`: the `Put`s of `e` and
`f` return with five entries and no record popped. -/
theorem C19_eviction_only_on_equality_witness :
    ∃ w, run (fun n => (n : Int)) (putOps [("e", "6"), ("f", "7")])
        ({ data := ((AList.insert "b" "3" ∅).insert "c" "4").insert "d" "5", capacity := 2,
           expiry := 10, expiryQueue := ⟨[⟨"b", 12⟩, ⟨"c", 13⟩, ⟨"d", 14⟩]⟩ }, 5) = some w ∧
      w.1.Size = 5 ∧ w.1.expiryQueue.records.length = 5 := by
  obtain ⟨w, hrun, _, hsize, _, hlen⟩ :=
    (C19_eviction_only_on_equality
      { data := ((AList.insert "b" "3" ∅).insert "c" "4").insert "d" "5", capacity := 2,
        expiry := 10, expiryQueue := ⟨[⟨"b", 12⟩, ⟨"c", 13⟩, ⟨"d", 14⟩]⟩ }).2.2
      (by decide) (fun n => (n : Int)) 5 [("e", "6"), ("f", "7")] (by decide) (by decide)
  exact ⟨w, hrun, hsize, hlen⟩

/-- C20: on a cache made by `NewCache(0, expiry)` the size of the empty map equals
the capacity and `pop` on the empty queue returns `nil` and changes nothing, so the
first `Put` takes the eviction branch and panics on the `nil`: it does not return; its
first section leaves the cache as it was created and its second section is the one
that panics, before anything is stored. On every cache of negative capacity every
`Put` returns, pops nothing, inserts the pair and pushes its record. -/
theorem C20_zero_capacity_put_fails (expiry now : Int) (k v : String) :
    (NewCache 0 expiry).Size = (NewCache 0 expiry).capacity ∧
    (NewCache 0 expiry).expiryQueue.pop = (none, (NewCache 0 expiry).expiryQueue) ∧
    (NewCache 0 expiry).Put now k v = none ∧
    PutCall.advance ⟨k, v, .atCheck⟩ now (NewCache 0 expiry) =
      some (⟨k, v, .atPop⟩, NewCache 0 expiry) ∧
    PutCall.advance ⟨k, v, .atPop⟩ now (NewCache 0 expiry) = none ∧
    ((NewCache 0 expiry).Get k).1 = ("", false) ∧
    (∀ c : Cache, c.capacity < 0 →
      c.Put now k v = some { c with
        data := c.data.insert k v
        expiryQueue := c.expiryQueue.push ⟨k, now + c.expiry⟩ }) := by
  refine ⟨rfl, rfl, rfl, rfl, rfl, rfl, ?_⟩
  intro c hneg
  apply Put_of_size_ne
  rw [size_eq_keys_length]
  omega

/-! ## States the proxy can reach -/

theorem window_Clear (c : Cache) : Window [] c.Clear := by
  refine ⟨List.nodup_nil, rfl, ?_⟩
  intro x y
  simp [Cache.Clear]

theorem window_popDelete {win : List (String × String)} {c : Cache} {r : KeyExpiry}
    {rs : List KeyExpiry} (h : Window win c) (hq : c.expiryQueue.records = r :: rs) :
    Window win.tail (c.popDelete r rs) := by
  obtain ⟨hnd, hkeys, hlook⟩ := h
  cases win with
  | nil => simp [ExpiryQueue.keys, hq] at hkeys
  | cons hd tl =>
    simp only [ExpiryQueue.keys, hq, List.map_cons, List.cons.injEq] at hkeys
    obtain ⟨hr, hrs⟩ := hkeys
    simp only [List.map_cons, List.nodup_cons] at hnd
    have hhd : ∀ y, (hd.1, y) ∉ tl := fun y hy => hnd.1 (List.mem_map.mpr ⟨(hd.1, y), hy, rfl⟩)
    refine ⟨hnd.2, ?_, ?_⟩
    · simpa [Cache.popDelete, Cache.deleteKey, ExpiryQueue.keys] using hrs
    · intro x y
      show (c.data.erase r.key).lookup x = some y ↔ (x, y) ∈ tl
      by_cases hxr : x = r.key
      · subst hxr
        rw [AList.lookup_erase]
        constructor
        · intro hy; cases hy
        · intro hy; rw [hr] at hy; exact absurd hy (hhd y)
      · rw [AList.lookup_erase_ne hxr, hlook, List.mem_cons]
        constructor
        · rintro (hy | hy)
          · rw [← hy] at hr; exact absurd hr.symm hxr
          · exact hy
        · exact Or.inr

theorem resident_NewCache (capacity expiry : Int) (hcap : 1 ≤ capacity) :
    Resident capacity (NewCache capacity expiry) :=
  ⟨rfl, [], window_NewCache capacity expiry, by simp; omega⟩

theorem resident_Clear {capacity : Int} {c : Cache} (h : Resident capacity c)
    (hcap : 1 ≤ capacity) : Resident capacity c.Clear :=
  ⟨h.1, [], window_Clear c, by simp; omega⟩

theorem resident_popDelete (capacity : Int) (c : Cache) (r : KeyExpiry) (rs : List KeyExpiry)
    (h : Resident capacity c) (hq : c.expiryQueue.records = r :: rs) :
    Resident capacity (c.popDelete r rs) := by
  obtain ⟨hc, win, hwin, hlen⟩ := h
  refine ⟨hc, win.tail, window_popDelete hwin hq, ?_⟩
  have : win.tail.length ≤ win.length := by simp
  omega

/-- A `Put` of a key that the map does not hold keeps the queue a list of the resident
entries and the size within the capacity. -/
theorem resident_Put {capacity : Int} {c : Cache} (h : Resident capacity c)
    (hcap : 1 ≤ capacity) (now : Int) (k v : String) (hk : k ∉ c.data) :
    ∃ c1, c.Put now k v = some c1 ∧ Resident capacity c1 := by
  obtain ⟨hc, win, hwin, hlen⟩ := h
  have hk2 : k ∉ win.map Prod.fst := fun hx => hk ((window_mem hwin k).mpr hx)
  obtain ⟨c1, hput, hwin1⟩ := window_Put hwin (by rw [hc]; exact hcap) now k v hk2
  refine ⟨c1, hput, by rw [(Put_capacity hput).1, hc], _, hwin1, ?_⟩
  rw [hc]
  simp only [windowAfter]
  by_cases hfull : (win.length : Int) = capacity
  · rw [if_pos hfull]
    have hpos : 0 < win.length := by omega
    simp only [List.length_append, List.length_tail, List.length_singleton]
    omega
  · rw [if_neg hfull]
    simp only [List.length_append, List.length_singleton]
    push_cast
    omega

theorem resident_facts {capacity : Int} {c : Cache} (h : Resident capacity c) :
    c.expiryQueue.keys.Nodup ∧ (∀ k, k ∈ c.expiryQueue.keys ↔ k ∈ c.data) ∧
      c.Size ≤ c.capacity ∧ c.Size = (c.expiryQueue.records.length : Int) := by
  obtain ⟨hc, win, hwin, hlen⟩ := h
  refine ⟨?_, ?_, ?_, ?_⟩
  · rw [hwin.2.1]; exact hwin.1
  · intro k
    rw [hwin.2.1]; exact (window_mem hwin k).symm
  · rw [window_size hwin, hc]; exact hlen
  · rw [window_size hwin]
    have : c.expiryQueue.keys.length = win.length := by rw [hwin.2.1, List.length_map]
    simp only [ExpiryQueue.keys, List.length_map] at this
    rw [this]

/-- Every step of the proxy returns and keeps the cache well formed. -/
theorem hstep_resident (clock : Nat → Int) (capacity : Int) (hcap : 1 ≤ capacity)
    (s : App × Nat) (op : HOp) (h : Resident capacity s.1.Cache) :
    ∃ s1, hstep clock s op = some s1 ∧ Resident capacity s1.1.Cache ∧
      s1.1.client = s.1.client := by
  cases op with
  | lookup key =>
    cases hlook : s.1.Cache.data.lookup key with
    | some v =>
      refine ⟨(s.1, s.2), ?_, h, rfl⟩
      simp [hstep, getValue_hit s.1 (clock s.2) key v hlook]
    | none =>
      rcases hst : s.1.client key with ⟨x, _ | e⟩
      · have hk : key ∉ s.1.Cache.data := AList.lookup_eq_none.mp hlook
        obtain ⟨c1, hput, hres⟩ := resident_Put h hcap (clock s.2) key x hk
        refine ⟨({ s.1 with Cache := c1 }, s.2 + 1), ?_, hres, rfl⟩
        simp [hstep, getValue_miss_ok s.1 (clock s.2) key x hlook hst, hput]
      · refine ⟨(s.1, s.2), ?_, h, rfl⟩
        simp [hstep, getValue_miss_err s.1 (clock s.2) key x e hlook hst]
  | sweep =>
    obtain ⟨r, hr⟩ := removeExpiredKeys_returns s.1.Cache (fun i => clock (s.2 + i))
    refine ⟨({ s.1 with Cache := r.1 }, s.2 + r.2), ?_, ?_, rfl⟩
    · simp only [hstep, hr, Option.map_some']
    · exact removeExpiredKeys_preserves (Resident capacity) (resident_popDelete capacity)
        _ s.1.Cache r h hr
  | clear => exact ⟨_, rfl, resident_Clear h hcap, rfl⟩

/-- Every sequence of steps of the proxy returns and keeps the cache well formed. -/
theorem hrun_resident (clock : Nat → Int) (capacity : Int) (hcap : 1 ≤ capacity) :
    ∀ (ops : List HOp) (s : App × Nat), Resident capacity s.1.Cache →
      ∃ s1, hrun clock ops s = some s1 ∧ Resident capacity s1.1.Cache ∧
        s1.1.client = s.1.client := by
  intro ops
  induction ops with
  | nil => intro s h; exact ⟨s, rfl, h, rfl⟩
  | cons op ops ih =>
    intro s h
    obtain ⟨s2, h2, hres2, hcl2⟩ := hstep_resident clock capacity hcap s op h
    obtain ⟨s1, h1, hres1, hcl1⟩ := ih s2 hres2
    exact ⟨s1, by simp only [hrun, h2]; exact h1, hres1, by rw [hcl1, hcl2]⟩

/-- C17: for every capacity of at least one, every store, every clock and every
sequence of lookups by `getValue`, sweeps and `Clear`s on a fresh cache, every step
returns, and in the state reached (hence after each step, the sequence being any)
the keys of the queue records are pairwise distinct, a key has a record in the queue
exactly when the map holds it, and `Size()` is at most the capacity and equal to the
number of records. -/
theorem C17_handler_states_well_formed (clock : Nat → Int)
    (client : String → String × Option String) (capacity expiry : Int)
    (hcap : 1 ≤ capacity) (ops : List HOp) :
    ∃ s, hrun clock ops (⟨client, NewCache capacity expiry⟩, 0) = some s ∧
      s.1.Cache.expiryQueue.keys.Nodup ∧
      (∀ k, k ∈ s.1.Cache.expiryQueue.keys ↔ k ∈ s.1.Cache.data) ∧
      s.1.Cache.Size ≤ s.1.Cache.capacity ∧
      s.1.Cache.Size = (s.1.Cache.expiryQueue.records.length : Int) ∧
      s.1.Cache.capacity = capacity := by
  obtain ⟨s, hrun, hres, _⟩ := hrun_resident clock capacity hcap ops
    (⟨client, NewCache capacity expiry⟩, 0) (resident_NewCache capacity expiry hcap)
  obtain ⟨h1, h2, h3, h4⟩ := resident_facts hres
  exact ⟨s, hrun, h1, h2, h3, h4, hres.1⟩

/-- C17 at capacity 2 with a store that holds every key but `x`: lookups of `a`, `b`,
`a` again, `x`, `c`, a sweep, a lookup of `d`, a `Clear` and a lookup of `a`. -/
theorem C17_handler_states_well_formed_witness :
    (1 : Int) ≤ 2 ∧
      ∃ s, hrun (fun n => (n : Int))
          [.lookup "a", .lookup "b", .lookup "a", .lookup "x", .lookup "c", .sweep,
            .lookup "d", .clear, .lookup "a"]
          (⟨fun k => if k = "x" then ("", some "redis: nil") else ("v", none),
            NewCache 2 100⟩, 0) = some s ∧
        s.1.Cache.expiryQueue.keys.Nodup ∧
        (∀ k, k ∈ s.1.Cache.expiryQueue.keys ↔ k ∈ s.1.Cache.data) ∧
        s.1.Cache.Size ≤ s.1.Cache.capacity ∧
        s.1.Cache.Size = (s.1.Cache.expiryQueue.records.length : Int) ∧
        s.1.Cache.capacity = 2 :=
  ⟨by decide, C17_handler_states_well_formed (fun n => (n : Int))
    (fun k => if k = "x" then ("", some "redis: nil") else ("v", none)) 2 100 (by decide) _⟩

/-! ## The linked queue and the list it represents -/

theorem chain_lt {heap : List Node} :
    ∀ {cells : List (Nat × KeyExpiry)} {p : Option Nat}, Chain heap p cells →
      ∀ c ∈ cells, c.1 < heap.length := by
  intro cells
  induction cells with
  | nil => intro p _ c hc; cases hc
  | cons c0 cs ih =>
    intro p h c hc
    obtain ⟨_, nx, hget, hrest⟩ := h
    rcases List.mem_cons.mp hc with hc | hc
    · rw [hc]
      exact (List.getElem?_eq_some.mp hget).1
    · exact ih hrest c hc

/-- Allocation leaves every chain as it is. -/
theorem chain_append {heap : List Node} (n : Node) :
    ∀ {cells : List (Nat × KeyExpiry)} {p : Option Nat}, Chain heap p cells →
      Chain (heap ++ [n]) p cells := by
  intro cells
  induction cells with
  | nil => intro p h; exact h
  | cons c0 cs ih =>
    intro p h
    obtain ⟨hp, nx, hget, hrest⟩ := h
    refine ⟨hp, nx, ?_, ih hrest⟩
    rw [List.getElem?_append_left (List.getElem?_eq_some.mp hget).1]
    exact hget

/-- Writing a struct that is not on a chain leaves the chain as it is. -/
theorem chain_set {heap : List Node} (t : Nat) (x : Node) :
    ∀ {cells : List (Nat × KeyExpiry)} {p : Option Nat}, Chain heap p cells →
      t ∉ cells.map Prod.fst → Chain (heap.set t x) p cells := by
  intro cells
  induction cells with
  | nil => intro p h _; exact h
  | cons c0 cs ih =>
    intro p h ht
    obtain ⟨hp, nx, hget, hrest⟩ := h
    simp only [List.map_cons, List.mem_cons, not_or] at ht
    refine ⟨hp, nx, ?_, ih hrest ht.2⟩
    rw [List.getElem?_set_ne ht.1]
    exact hget

/-- Linking a struct that is not on the chain, and whose `next` is `nil`, after the
last struct of the chain makes the chain one longer. -/
theorem chain_snoc {heap : List Node} (t : Nat) (rt : KeyExpiry) (a : Nat) (r : KeyExpiry)
    (ha : heap[a]? = some ⟨r.key, r.expiration, none⟩) (hat : a ≠ t) :
    ∀ {cells : List (Nat × KeyExpiry)} {p : Option Nat}, Chain heap p (cells ++ [(t, rt)]) →
      ((cells ++ [(t, rt)]).map Prod.fst).Nodup →
      Chain (heap.set t ⟨rt.key, rt.expiration, some a⟩) p (cells ++ [(t, rt), (a, r)]) := by
  intro cells
  induction cells with
  | nil =>
    intro p h _
    obtain ⟨hp, nx, hget, _⟩ := h
    refine ⟨hp, some a, ?_, rfl, none, ?_, rfl⟩
    · exact List.getElem?_set_self (List.getElem?_eq_some.mp hget).1
    · show (heap.set t _)[a]? = _
      rw [List.getElem?_set_ne (Ne.symm hat)]
      exact ha
  | cons c0 cs ih =>
    intro p h hnd
    obtain ⟨hp, nx, hget, hrest⟩ := h
    simp only [List.cons_append, List.map_cons, List.nodup_cons] at hnd
    have hne : t ≠ c0.1 := by
      intro heq
      apply hnd.1
      rw [← heq]
      simp
    refine ⟨hp, nx, ?_, ih hrest hnd.2⟩
    show (heap.set t _)[c0.1]? = _
    rw [List.getElem?_set_ne hne]
    exact hget

theorem chain_walk {heap : List Node} :
    ∀ {cells : List (Nat × KeyExpiry)} {p : Option Nat} (fuel : Nat), Chain heap p cells →
      cells.length ≤ fuel → walk heap fuel p = cells.map Prod.snd := by
  intro cells
  induction cells with
  | nil =>
    intro p fuel h _
    rw [show p = none from h]
    cases fuel <;> rfl
  | cons c0 cs ih =>
    intro p fuel h hlen
    obtain ⟨hp, nx, hget, hrest⟩ := h
    cases fuel with
    | zero => simp at hlen
    | succ fuel =>
      rw [hp]
      simp only [walk, hget, List.map_cons]
      rw [ih fuel hrest (by simpa using hlen)]

theorem length_le_of_nodup_of_lt (l : List Nat) (n : Nat) (hnd : l.Nodup)
    (hlt : ∀ a ∈ l, a < n) : l.length ≤ n := by
  have hsub : l.toFinset ⊆ Finset.range n := by
    intro a ha
    exact Finset.mem_range.mpr (hlt a (List.mem_toFinset.mp ha))
  have := Finset.card_le_card hsub
  rwa [List.toFinset_card_of_nodup hnd, Finset.card_range] at this

/-- The list a linked queue represents is the list met by following `next` from
`head`. -/
theorem refines_toList {e : LinkedQueue} {l : ExpiryQueue} (h : Refines e l) :
    e.toList = l.records := by
  obtain ⟨cells, hchain, hnd, _, hrec⟩ := h
  have hlen : cells.length ≤ e.heap.length := by
    have := length_le_of_nodup_of_lt (cells.map Prod.fst) e.heap.length hnd (by
      intro a ha
      obtain ⟨c, hc, rfl⟩ := List.mem_map.mp ha
      exact chain_lt hchain c hc)
    simpa using this
  rw [LinkedQueue.toList, chain_walk _ hchain hlen, hrec]

theorem refines_new : Refines newLinkedQueue newExpiryQueue :=
  ⟨[], rfl, List.nodup_nil, rfl, rfl⟩

theorem refines_clear (e : LinkedQueue) (l : ExpiryQueue) : Refines e.clear l.clear :=
  ⟨[], rfl, List.nodup_nil, rfl, rfl⟩

/-- The method `peek` returns a pointer to the first record of the list, `nil` when
there is none. -/
theorem refines_peek {e : LinkedQueue} {l : ExpiryQueue} (h : Refines e l) :
    e.deref e.peek = l.peek := by
  obtain ⟨cells, hchain, _, _, hrec⟩ := h
  cases cells with
  | nil =>
    have hhead : e.head = none := hchain
    simp only [List.map_nil] at hrec
    simp [LinkedQueue.peek, LinkedQueue.deref, ExpiryQueue.peek, ← hrec, hhead]
  | cons c cs =>
    obtain ⟨hp, nx, hget, _⟩ := hchain
    simp only [List.map_cons] at hrec
    simp [LinkedQueue.peek, LinkedQueue.deref, ExpiryQueue.peek, ← hrec, hp, hget]

theorem chain_last {heap : List Node} (t : Nat) (rt : KeyExpiry) :
    ∀ {cells : List (Nat × KeyExpiry)} {p : Option Nat}, Chain heap p (cells ++ [(t, rt)]) →
      heap[t]? = some ⟨rt.key, rt.expiration, none⟩ ∧ ∃ h, p = some h := by
  intro cells
  induction cells with
  | nil =>
    intro p h
    obtain ⟨hp, nx, hget, hnx⟩ := h
    rw [show nx = none from hnx] at hget
    exact ⟨hget, _, hp⟩
  | cons c0 cs ih =>
    intro p h
    obtain ⟨hp, nx, _, hrest⟩ := h
    exact ⟨(ih hrest).1, _, hp⟩

/-- The method `pop` returns a pointer to the first record of the list and leaves the
rest of the list; on the empty list it returns `nil` and leaves the empty list. -/
theorem refines_pop {e : LinkedQueue} {l : ExpiryQueue} (h : Refines e l) :
    ∃ p e1, e.pop = some (p, e1) ∧ e.deref p = l.pop.1 ∧ Refines e1 l.pop.2 := by
  obtain ⟨cells, hchain, hnd, htail, hrec⟩ := h
  cases cells with
  | nil =>
    have hhead : e.head = none := hchain
    simp only [List.map_nil] at hrec
    refine ⟨none, e, ?_, ?_, ?_⟩
    · simp [LinkedQueue.pop, hhead]
    · simp [LinkedQueue.deref, ExpiryQueue.pop, ← hrec]
    · have : l.pop.2 = l := by simp [ExpiryQueue.pop, ← hrec]
      rw [this]
      exact ⟨[], hchain, hnd, htail, hrec⟩
  | cons c cs =>
    obtain ⟨hp, nx, hget, hrest⟩ := hchain
    simp only [List.map_cons] at hrec
    simp only [List.map_cons, List.nodup_cons] at hnd
    have hpop1 : l.pop = (some c.2, ⟨cs.map Prod.snd⟩) := by
      simp [ExpiryQueue.pop, ← hrec]
    rw [hpop1]
    cases cs with
    | nil =>
      have hnx : nx = none := hrest
      subst hnx
      refine ⟨some c.1, { e with head := none, tail := none }, ?_, ?_, ?_⟩
      · simp [LinkedQueue.pop, hp, hget]
      · simp [LinkedQueue.deref, hget]
      · exact ⟨[], rfl, List.nodup_nil, rfl, rfl⟩
    | cons c2 cs2 =>
      have hnx : nx = some c2.1 := hrest.1
      refine ⟨some c.1, { e with head := nx }, ?_, ?_, ?_⟩
      · simp [LinkedQueue.pop, hp, hget, hnx]
      · simp [LinkedQueue.deref, hget]
      · refine ⟨c2 :: cs2, hrest, hnd.2, ?_, rfl⟩
        show e.tail = _
        rw [htail]
        simp

/-- The method `push` of a newly allocated record whose `next` is `nil` appends the
record to the list. -/
theorem refines_push {e : LinkedQueue} {l : ExpiryQueue} (h : Refines e l) (key : String)
    (expiration : Int) :
    ∃ e1, (e.alloc ⟨key, expiration, none⟩).1.push (e.alloc ⟨key, expiration, none⟩).2 =
        some e1 ∧ Refines e1 (l.push ⟨key, expiration⟩) := by
  obtain ⟨cells, hchain, hnd, htail, hrec⟩ := h
  have hnew : (e.heap ++ [(⟨key, expiration, none⟩ : Node)])[e.heap.length]? =
      some ⟨key, expiration, none⟩ := List.getElem?_concat_length _ _
  have hfresh : e.heap.length ∉ cells.map Prod.fst := by
    intro hx
    obtain ⟨c, hc, hc1⟩ := List.mem_map.mp hx
    have := chain_lt hchain c hc
    omega
  rcases List.eq_nil_or_concat cells with rfl | ⟨init, ⟨t, rt⟩, hcells⟩
  · have hhead : e.head = none := hchain
    simp only [List.map_nil] at hrec
    refine ⟨{ heap := e.heap ++ [⟨key, expiration, none⟩], head := some e.heap.length,
              tail := some e.heap.length }, ?_, ?_⟩
    · simp [LinkedQueue.alloc, LinkedQueue.push, hhead]
    · refine ⟨[(e.heap.length, ⟨key, expiration⟩)], ⟨rfl, none, hnew, rfl⟩, by simp, rfl, ?_⟩
      simp [ExpiryQueue.push, ← hrec]
  · rw [List.concat_eq_append] at hcells
    subst hcells
    obtain ⟨hlast, hd, hhead⟩ := chain_last t rt hchain
    have htl : e.tail = some t := by rw [htail]; simp
    have hlt : t < e.heap.length := (List.getElem?_eq_some.mp hlast).1
    have hlast2 : (e.heap ++ [(⟨key, expiration, none⟩ : Node)])[t]? =
        some ⟨rt.key, rt.expiration, none⟩ := by
      rw [List.getElem?_append_left hlt]; exact hlast
    refine ⟨{ heap := (e.heap ++ [(⟨key, expiration, none⟩ : Node)]).set t
                ⟨rt.key, rt.expiration, some e.heap.length⟩,
              head := e.head, tail := some e.heap.length }, ?_, ?_⟩
    · simp [LinkedQueue.alloc, LinkedQueue.push, hhead, htl, hlast2]
    · refine ⟨init ++ [(t, rt), (e.heap.length, ⟨key, expiration⟩)], ?_, ?_, ?_, ?_⟩
      · exact chain_snoc t rt e.heap.length ⟨key, expiration⟩ hnew (by omega)
          (chain_append _ hchain) hnd
      · have : init ++ [(t, rt), (e.heap.length, (⟨key, expiration⟩ : KeyExpiry))] =
            (init ++ [(t, rt)]) ++ [(e.heap.length, ⟨key, expiration⟩)] := by simp
        rw [this, List.map_append, List.nodup_append]
        refine ⟨hnd, by simp, ?_⟩
        intro x hx hx2
        simp only [List.map_cons, List.map_nil, List.mem_singleton] at hx2
        rw [hx2] at hx
        exact hfresh hx
      · simp
      · simp only [ExpiryQueue.push, ← hrec]
        simp

/-- One call on the linked queue does what the same call does on the list it
represents, and returns the same record. -/
theorem call_refines {e : LinkedQueue} {l : ExpiryQueue} (h : Refines e l) (op : QOp) :
    ∃ e1, e.call op = some (e1, (l.call op).2) ∧ Refines e1 (l.call op).1 := by
  cases op with
  | push key expiration =>
    obtain ⟨e1, hpush, href⟩ := refines_push h key expiration
    exact ⟨e1, by simp [LinkedQueue.call, hpush, ExpiryQueue.call], href⟩
  | pop =>
    obtain ⟨p, e1, hpop, hder, href⟩ := refines_pop h
    exact ⟨e1, by simp [LinkedQueue.call, hpop, ExpiryQueue.call, hder], href⟩
  | peek => exact ⟨e, by simp [LinkedQueue.call, ExpiryQueue.call, refines_peek h], h⟩
  | clear => exact ⟨e.clear, rfl, refines_clear e l⟩

/-- Every sequence of calls on the linked queue returns, returns the records the same
calls return on the list, and ends in a queue that represents the list they end in. -/
theorem calls_refines :
    ∀ (ops : List QOp) (e : LinkedQueue) (l : ExpiryQueue), Refines e l →
      ∃ e1, e.calls ops = some (e1, (l.calls ops).2) ∧ Refines e1 (l.calls ops).1 := by
  intro ops
  induction ops with
  | nil => intro e l h; exact ⟨e, rfl, h⟩
  | cons op ops ih =>
    intro e l h
    obtain ⟨e2, hcall, href2⟩ := call_refines h op
    obtain ⟨e1, hcalls, href1⟩ := ih e2 (l.call op).1 href2
    exact ⟨e1, by simp [LinkedQueue.calls, hcall, hcalls, ExpiryQueue.calls], href1⟩

theorem listCalls_append (ops1 ops2 : List QOp) (l : ExpiryQueue) :
    l.calls (ops1 ++ ops2) =
      (((l.calls ops1).1.calls ops2).1, (l.calls ops1).2 ++ ((l.calls ops1).1.calls ops2).2) := by
  induction ops1 generalizing l with
  | nil => simp [ExpiryQueue.calls]
  | cons op ops ih => simp [ExpiryQueue.calls, ih]

theorem listCalls_pushOps (rs : List KeyExpiry) (l : ExpiryQueue) :
    l.calls (pushOps rs) = (⟨l.records ++ rs⟩, []) := by
  induction rs generalizing l with
  | nil => simp [pushOps, ExpiryQueue.calls]
  | cons r rs ih =>
    have := ih (l.push ⟨r.key, r.expiration⟩)
    simp only [pushOps, List.map_cons, ExpiryQueue.calls, ExpiryQueue.call] at this ⊢
    rw [this]
    simp [ExpiryQueue.push]

theorem listCalls_pops (rs : List KeyExpiry) :
    ExpiryQueue.calls (List.replicate rs.length QOp.pop) ⟨rs⟩ = (⟨[]⟩, rs.map some) := by
  induction rs with
  | nil => simp [ExpiryQueue.calls]
  | cons r rs ih =>
    simp [List.replicate_succ, ExpiryQueue.calls, ExpiryQueue.call, ExpiryQueue.pop, ih]

theorem pop_fst (l : ExpiryQueue) : l.pop.1 = l.records.head? := by
  simp only [ExpiryQueue.pop]
  cases l.records <;> rfl

theorem pop_snd (l : ExpiryQueue) : l.pop.2.records = l.records.tail := by
  simp only [ExpiryQueue.pop]
  cases h : l.records <;> simp [h]

/-- C14: for every sequence of `push` (of newly allocated records whose `next` is
`nil`, as `Put` makes them), `pop`, `peek` and `clear` calls on a new linked queue:
the calls all return, they return the records that the same calls return on a list
of records, and the structs linked from `head` at the end hold the list these calls
end in. In the state reached, a further `push` appends its record at the tail of the
list, `pop` returns the first record and leaves the rest (`nil` and the empty list
when there is none), `peek` returns the first record (or `nil`) and changes nothing,
and `clear` leaves the empty list. Hence the records pushed on a new queue are
returned by as many `pop`s in the order in which they were pushed. -/
theorem C14_linked_queue_refines_list (ops : List QOp) :
    ∃ e, LinkedQueue.calls ops newLinkedQueue = some (e, (newExpiryQueue.calls ops).2) ∧
      e.toList = (newExpiryQueue.calls ops).1.records ∧
      (∀ key expiration, ∃ e1, e.call (.push key expiration) = some (e1, []) ∧
        e1.toList = e.toList ++ [⟨key, expiration⟩]) ∧
      (∃ e1, e.call .pop = some (e1, [e.toList.head?]) ∧ e1.toList = e.toList.tail) ∧
      e.call .peek = some (e, [e.toList.head?]) ∧
      (e.call .clear = some (e.clear, []) ∧ e.clear.toList = []) ∧
      (∀ rs : List KeyExpiry, ∃ e2,
        LinkedQueue.calls (pushOps rs ++ List.replicate rs.length .pop) newLinkedQueue =
          some (e2, rs.map some) ∧ e2.toList = []) := by
  obtain ⟨e, hcalls, href⟩ := calls_refines ops newLinkedQueue newExpiryQueue refines_new
  have hlist := refines_toList href
  refine ⟨e, hcalls, hlist, ?_, ?_, ?_, ⟨rfl, ?_⟩, ?_⟩
  · intro key expiration
    obtain ⟨e1, hcall, href1⟩ := call_refines href (.push key expiration)
    refine ⟨e1, hcall, ?_⟩
    rw [refines_toList href1, hlist]
    rfl
  · obtain ⟨e1, hcall, href1⟩ := call_refines href .pop
    refine ⟨e1, ?_, ?_⟩
    · rw [hcall, hlist]
      simp [ExpiryQueue.call, pop_fst]
    · rw [refines_toList href1, hlist]
      exact pop_snd _
  · obtain ⟨e1, hcall, _⟩ := call_refines href .peek
    rw [hlist]
    simp only [LinkedQueue.call, Option.some.injEq, Prod.mk.injEq, true_and] at hcall ⊢
    simpa [ExpiryQueue.call, ExpiryQueue.peek] using hcall.2
  · exact refines_toList (refines_clear e newExpiryQueue)
  · intro rs
    obtain ⟨e2, hcalls2, href2⟩ := calls_refines
      (pushOps rs ++ List.replicate rs.length .pop) newLinkedQueue newExpiryQueue refines_new
    have hl : newExpiryQueue.calls (pushOps rs ++ List.replicate rs.length .pop) =
        (⟨[]⟩, rs.map some) := by
      rw [listCalls_append, listCalls_pushOps]
      simp [newExpiryQueue, listCalls_pops]
    rw [hl] at hcalls2 href2
    exact ⟨e2, hcalls2, refines_toList href2⟩

end RedisProxy
